import Mathlib

/-!
# Run-scoped result store: shallow embedding and verification

This file embeds the run-scoped result store of the repository
(the Neon/Postgres-backed key/value store in `lib/store.ts` and the
push API route) as pure Lean functions over an explicit store state,
and proves / refutes the frozen specification claims about it.

Conventions of the embedding:
* The single physical KV table is modelled as a `Store` record with one
  field per logical key family.  The key families (`rlm:runs`,
  `rlm:current_run_id`, `rlm:run:{id}:{kind}`, and the five fixed legacy
  keys) are pairwise distinct strings (the kind suffixes contain no
  colon), so a record of functions is a faithful model of the table.
* A missing key is `none`; `readKV key fallback` is `Option.getD`.
* Timestamps (`Date.now()`, ISO instants) are modelled as natural
  numbers (milliseconds); operations that read the clock take an
  explicit `now : Nat` argument.  `String(Date.now())` is `toString now`.
  `toTimestamp` parses canonical millisecond ids with `String.toNat?`;
  the `new Date(string)` parse of non-numeric ids is subsumed by the
  fallback (no claim depends on it).
* JSON numbers are modelled as rationals; `Number.prototype.toFixed(4)`
  is `jsToFixed4` (round half away from zero at four decimals, per the
  ECMAScript specification of `toFixed` which extracts the sign first).
* Opaque JSON payloads whose contents the store never inspects
  (ranking documents, prompt bundles) are modelled by `JsonDoc`;
  interface fields never read by the store logic are elided from the
  record models and noted where they occur.
-/

namespace RlmStore

/-- Opaque JSON document payload; the store logic never inspects it. -/
structure JsonDoc where
  tag : Nat
deriving Repr, DecidableEq

/-- `AnalysisSummary` of `lib/store.ts`.  Only presence and the
`last_updated` stamp (written by `setSummary`) matter to the store
logic; the analysis payload fields (`repo`, `total_prs_evaluated`,
`top_prs`, ...) are elided. -/
structure AnalysisSummary where
  total_prs_evaluated : Nat := 0
  last_updated : Option Nat := none
deriving Repr, DecidableEq

/-- `PREvaluation` of `lib/store.ts`.  The comparator additionally reads
the dynamic (undeclared) fields `final_score`, `score` and
`justification` of the incoming JSON, so those are carried as options;
`final_rank_score` is likewise optional at runtime (JSON payloads are
not schema-validated) and the comparator guards it with `??`.
`agent_traces` is elided (never read). -/
structure PREvaluation where
  pr_number : Nat
  title : String := ""
  risk_score : ℚ := 0
  quality_score : ℚ := 0
  strategic_value : ℚ := 0
  novelty_score : ℚ := 0
  test_alignment : ℚ := 0
  final_rank_score : Option ℚ := none
  review_summary : String := ""
  confidence : ℚ := 0
  impact_scope : List String := []
  linked_issues : List Nat := []
  final_score : Option ℚ := none
  score : Option ℚ := none
  justification : Option String := none
deriving Repr, DecidableEq

/-- `PRCluster` of `lib/store.ts`; the store logic only tests presence
and array length, so the grouping payload is elided. -/
structure PRCluster where
  cluster_id : Nat
  members : List Nat := []
deriving Repr, DecidableEq

/-- `AgentTraceStep` of `lib/store.ts` (payload partially elided). -/
structure AgentTraceStep where
  iteration : Nat := 0
  content : String := ""
deriving Repr, DecidableEq

/-- `RunMeta` of `lib/store.ts`.  The store logic reads and writes
`id`, `timestamp`, `status` and `ended_at`; the remaining optional
metadata fields (`prompt_version`, `model_name`, `cost_usd`, ...) are
carried through merges field-wise in exactly the same way and are
elided. -/
structure RunMeta where
  id : String
  timestamp : Nat
  status : Option String := none
  ended_at : Option String := none
deriving Repr, DecidableEq

/-- A `Partial<RunMeta>` patch: each field is present or absent. -/
structure RunMetaPatch where
  id : Option String := none
  timestamp : Option Nat := none
  status : Option String := none
  ended_at : Option String := none
deriving Repr, DecidableEq

/-- `RunEvent` of `lib/store.ts`: the `event` discriminator plus the
`ended_at` field when it is a string (other dynamic fields are never
read by `appendRunEvent`). -/
structure RunEvent where
  event : String
  ended_at : Option String := none
deriving Repr, DecidableEq

/-- A row of the run comparison payload (`RunComparisonRow`). -/
structure RunComparisonRow where
  pr_number : Nat
  title : String
  run_a_score : Option ℚ
  run_b_score : Option ℚ
  delta : Option ℚ
  rank_a : Option Nat
  rank_b : Option Nat
  justification_a : String
  justification_b : String
deriving Repr, DecidableEq

/-- Per-run side of the comparison payload. -/
structure RunComparisonSide where
  id : String
  meta : Option RunMeta
  scored_count : Nat
  avg_score : ℚ
deriving Repr, DecidableEq

/-- `RunComparisonData` of `lib/store.ts`. -/
structure RunComparisonData where
  run_a : RunComparisonSide
  run_b : RunComparisonSide
  rows : List RunComparisonRow
deriving Repr, DecidableEq

/-- `CleanupRunsResult` of `lib/store.ts`. -/
structure CleanupRunsResult where
  legacy_run_id : Option String
  best_run_id : Option String
  kept_run_ids : List String
  deleted_run_ids : List String
deriving Repr, DecidableEq

/-- The KV table, split by key family.  `runs` is the `rlm:runs` key,
`currentRunId` the `rlm:current_run_id` key, the function-valued fields
are the `rlm:run:{id}:{kind}` keys, and the `legacy*` fields are the
five fixed un-namespaced legacy keys. -/
structure Store where
  runs : Option (List String)
  currentRunId : Option String
  meta : String → Option RunMeta
  summary : String → Option AnalysisSummary
  evaluations : String → Option (List PREvaluation)
  clusters : String → Option (List PRCluster)
  ranking : String → Option JsonDoc
  trace : String → Option (List AgentTraceStep)
  promptBundle : String → Option JsonDoc
  legacySummary : Option AnalysisSummary
  legacyEvaluations : Option (List PREvaluation)
  legacyClusters : Option (List PRCluster)
  legacyRanking : Option JsonDoc
  legacyTrace : Option (List AgentTraceStep)

/-- Point update of a key-indexed field. -/
def setF (f : String → Option α) (k : String) (v : Option α) : String → Option α :=
  fun x => if x = k then v else f x

/-- The reserved legacy sentinel run id (`LEGACY_RUN_ID`). -/
def LEGACY_RUN_ID : String := "legacy"

/-- `isLegacyScope(runId)`: `runId` is absent, falsy, the literal
`"latest"`, or the legacy sentinel. -/
def isLegacyScope : Option String → Bool
  | none => true
  | some rid => rid = "" || rid = "latest" || rid = LEGACY_RUN_ID

/-- Decimal parse of a run id (kernel-computable stand-in for
`Number(runId)` on canonical millisecond ids; non-digit ids fall
through to the fallback). -/
def jsParseNat (s : String) : Option Nat :=
  if s.data ≠ [] ∧ s.data.all Char.isDigit then
    some (s.data.foldl (fun n c => n * 10 + (c.toNat - 48)) 0)
  else none

/-- `toTimestamp(runId, fallback)`: canonical millisecond ids parse to
their value, anything else falls back. -/
def jsTimestamp (runId : String) (fallback : Nat) : Nat :=
  (jsParseNat runId).getD fallback

/-- `createRunId()` = `String(Date.now())`. -/
def createRunId (now : Nat) : String := toString now

/-- JS `String.prototype.trim()`: strip whitespace from both ends
(kernel-computable; ASCII whitespace, which covers every string the
claims touch). -/
def jsTrim (s : String) : String :=
  String.mk (((s.data.dropWhile Char.isWhitespace).reverse.dropWhile
    Char.isWhitespace).reverse)

/-- `clearCurrentRunId()`. -/
def clearCurrentRunId (s : Store) : Store :=
  { s with currentRunId := none }

/-- `hasData(value)`: a non-empty array, or a present document. -/
def hasDataList (v : Option (List α)) : Bool :=
  ¬ (v.getD []).isEmpty

/-- `hasLegacyData()`: some legacy-scoped collection holds data. -/
def hasLegacyData (s : Store) : Bool :=
  s.legacySummary.isSome || hasDataList s.legacyEvaluations ||
    hasDataList s.legacyClusters || s.legacyRanking.isSome ||
    hasDataList s.legacyTrace

/-- `ensureLegacyRunMigration()`: if the registry is empty and legacy
data exists, register the legacy sentinel with a fresh metadata
record. -/
def ensureLegacyRunMigration (now : Nat) (s : Store) : Store :=
  let existing := s.runs.getD []
  if existing.length > 0 then s
  else if !hasLegacyData s then s
  else
    { s with
      runs := some [LEGACY_RUN_ID],
      meta := setF s.meta LEGACY_RUN_ID
        (some { id := LEGACY_RUN_ID, timestamp := now }) }

/-- `getRunIds()`: run migration, then read the registry. -/
def getRunIds (now : Nat) (s : Store) : List String × Store :=
  let s1 := ensureLegacyRunMigration now s
  (s1.runs.getD [], s1)

/-- `ensureRun(runId)`: append the id to the registry if absent, and
write a minimal metadata record if none exists. -/
def ensureRun (now : Nat) (runId : String) (s : Store) : Store :=
  let p := getRunIds now s
  let existing := p.1
  let s1 := p.2
  let s2 :=
    if runId ∈ existing then s1
    else { s1 with runs := some (existing ++ [runId]) }
  match s2.meta runId with
  | some _ => s2
  | none =>
    { s2 with
      meta := setF s2.meta runId
        (some { id := runId, timestamp := jsTimestamp runId now,
                status := some "running" }) }

/-- `getCurrentRunId()`: the pointer value if it still names a
registered run; a dangling pointer is cleared (self-healing). -/
def getCurrentRunId (now : Nat) (s : Store) : Option String × Store :=
  match s.currentRunId with
  | none => (none, s)
  | some rid =>
    if rid = "" then (none, s)
    else
      let p := getRunIds now s
      if rid ∈ p.1 then (some rid, p.2)
      else (none, clearCurrentRunId p.2)

/-- `getOrCreateCurrentRunId()`. -/
def getOrCreateCurrentRunId (now : Nat) (s : Store) : String × Store :=
  match getCurrentRunId now s with
  | (some rid, s1) => (rid, s1)
  | (none, s1) =>
    let runId := createRunId now
    let s2 := ensureRun now runId s1
    (runId, { s2 with currentRunId := some runId })

/-- `getEvaluations(runId)`: legacy scope reads the fixed legacy key,
otherwise the run-namespaced key. -/
def getEvaluations (runId : Option String) (s : Store) : List PREvaluation :=
  if isLegacyScope runId then s.legacyEvaluations.getD []
  else
    match runId with
    | some rid => (s.evaluations rid).getD []
    | none => s.legacyEvaluations.getD []

/-- `getRunMeta(runId)`: legacy scope reads the legacy sentinel's
namespaced meta key. -/
def getRunMeta (runId : String) (s : Store) : Option RunMeta :=
  if runId = "" || isLegacyScope (some runId) then s.meta LEGACY_RUN_ID
  else s.meta runId

/-- `setRunMeta(runId, data)`: ensure the run, merge the patch over the
existing record, force `id`, and never drop `timestamp`. -/
def setRunMeta (now : Nat) (runId : String) (patch : RunMetaPatch) (s : Store) : Store :=
  let s1 := ensureRun now runId s
  let existing := s1.meta runId
  let base : RunMeta :=
    existing.getD { id := runId, timestamp := jsTimestamp runId now }
  let merged : RunMeta :=
    { id := runId,
      timestamp :=
        patch.timestamp.getD
          (match existing with
           | some e => e.timestamp
           | none => jsTimestamp runId now),
      status := patch.status <|> base.status,
      ended_at := patch.ended_at <|> base.ended_at }
  { s1 with meta := setF s1.meta runId (some merged) }

/-- The `{ ...existing, ...updated }` spread that `appendRunEvent`
passes to `setRunMeta` for a recognized lifecycle event. -/
def lifecyclePatch (existing : Option RunMeta) (status : String)
    (endedAt : Option String) : RunMetaPatch :=
  match existing with
  | some e =>
    { id := some e.id, timestamp := some e.timestamp,
      status := some status, ended_at := endedAt <|> e.ended_at }
  | none =>
    { status := some status, ended_at := endedAt }

/-- `appendRunEvent(runId, event)`: the two recognized lifecycle events
produce a status/`ended_at` metadata patch; any other event leaves the
store untouched (`updated` stays empty and no write is issued). -/
def appendRunEvent (now : Nat) (runId : String) (ev : RunEvent) (s : Store) : Store :=
  let existing := getRunMeta runId s
  if ev.event = "completed" then
    setRunMeta now runId (lifecyclePatch existing "completed" ev.ended_at) s
  else if ev.event = "failed" then
    setRunMeta now runId (lifecyclePatch existing "failed" ev.ended_at) s
  else s

/-- `setEvaluations(runId, data)`. -/
def setEvaluations (now : Nat) (runId : String) (data : List PREvaluation) (s : Store) : Store :=
  let s1 := ensureRun now runId s
  { s1 with evaluations := setF s1.evaluations runId (some data) }

/-- `setLegacyEvaluations(data)`. -/
def setLegacyEvaluations (data : List PREvaluation) (s : Store) : Store :=
  { s with legacyEvaluations := some data }

/-- `appendEvaluation(runId, ev)`: whole-collection read-modify-write
upsert keyed by `pr_number`. -/
def appendEvaluation (now : Nat) (runId : String) (ev : PREvaluation) (s : Store) : Store :=
  let existing := getEvaluations (some runId) s
  match existing.findIdx? (fun e => e.pr_number = ev.pr_number) with
  | some idx => setEvaluations now runId (existing.set idx ev) s
  | none => setEvaluations now runId (existing ++ [ev]) s

/-- `appendLegacyEvaluation(ev)`. -/
def appendLegacyEvaluation (ev : PREvaluation) (s : Store) : Store :=
  let existing := getEvaluations (some LEGACY_RUN_ID) s
  match existing.findIdx? (fun e => e.pr_number = ev.pr_number) with
  | some idx => setLegacyEvaluations (existing.set idx ev) s
  | none => setLegacyEvaluations (existing ++ [ev]) s

/-- `setSummary(runId, data)` (stamps `last_updated`). -/
def setSummary (now : Nat) (runId : String) (data : AnalysisSummary) (s : Store) : Store :=
  let s1 := ensureRun now runId s
  { s1 with
    summary := setF s1.summary runId (some { data with last_updated := some now }) }

/-- `setLegacySummary(data)`. -/
def setLegacySummary (now : Nat) (data : AnalysisSummary) (s : Store) : Store :=
  { s with legacySummary := some { data with last_updated := some now } }

/-- `setClusters(runId, data)`. -/
def setClusters (now : Nat) (runId : String) (data : List PRCluster) (s : Store) : Store :=
  let s1 := ensureRun now runId s
  { s1 with clusters := setF s1.clusters runId (some data) }

/-- `setLegacyClusters(data)`. -/
def setLegacyClusters (data : List PRCluster) (s : Store) : Store :=
  { s with legacyClusters := some data }

/-- `setRanking(runId, data)`. -/
def setRanking (now : Nat) (runId : String) (data : JsonDoc) (s : Store) : Store :=
  let s1 := ensureRun now runId s
  { s1 with ranking := setF s1.ranking runId (some data) }

/-- `setLegacyRanking(data)`. -/
def setLegacyRanking (data : JsonDoc) (s : Store) : Store :=
  { s with legacyRanking := some data }

/-- `setAgentTrace(runId, data)`. -/
def setAgentTrace (now : Nat) (runId : String) (data : List AgentTraceStep) (s : Store) : Store :=
  let s1 := ensureRun now runId s
  { s1 with trace := setF s1.trace runId (some data) }

/-- `setLegacyAgentTrace(data)`. -/
def setLegacyAgentTrace (data : List AgentTraceStep) (s : Store) : Store :=
  { s with legacyTrace := some data }

/-- `getEvaluationCount(runId)`. -/
def getEvaluationCount (runId : String) (s : Store) : Nat :=
  (getEvaluations (some runId) s).length

/-! ## Stable descending sort

`Array.prototype.sort` is specification-stable (ES2019); a stable sort
by a total key is extensionally unique, so a stable insertion sort is a
faithful model of every `sort((a, b) => key b - key a)` call in the
source.  The element earliest in the input comes first among equal
keys. -/

/-- Insert `a` in front of the first element whose key is `≤ key a`
(equal keys from the suffix stay behind `a`: stability). -/
def insertByKeyDesc [LinearOrder β] (key : α → β) (a : α) : List α → List α
  | [] => [a]
  | b :: l => if key b > key a then b :: insertByKeyDesc key a l else a :: b :: l

/-- Stable insertion sort, descending by `key`. -/
def sortByKeyDesc [LinearOrder β] (key : α → β) : List α → List α
  | [] => []
  | a :: l => insertByKeyDesc key a (sortByKeyDesc key l)

/-- The registry list (`readKV(RUNS_KEY, [])` without migration). -/
def registryOf (s : Store) : List String := s.runs.getD []

/-- The metadata fallback used by `getRuns` for a registered id with no
stored record: `id` plus a timestamp derived from the id (epoch on
failure). -/
def metaOrDefault (s : Store) (id : String) : RunMeta :=
  (s.meta id).getD { id := id, timestamp := jsTimestamp id 0 }

/-- `getRuns()`: all registered runs' metadata, reverse-chronological
(stable sort, descending timestamp). -/
def getRuns (now : Nat) (s : Store) : List RunMeta × Store :=
  let p := getRunIds now s
  (sortByKeyDesc (fun m => (m.timestamp : Int)) (p.1.map (metaOrDefault p.2)), p.2)

/-- The `reduce` step of `getLatestRunId` and `cleanupRuns`: keep the
current element only when its count is strictly larger (first-seen wins
ties). -/
def reduceBest (counts : List (String × Int)) (init : String × Int) : String × Int :=
  counts.foldl (fun w c => if c.2 > w.2 then c else w) init

/-- `getLatestRunId()`: the run with the most evaluations (first-seen
tie-break over the reverse-chronological listing); on an all-zero count
the legacy sentinel when registered, else the first listed run; `null`
only without runs. -/
def getLatestRunId (now : Nat) (s : Store) : Option String × Store :=
  let p := getRuns now s
  let runs := p.1
  let s1 := p.2
  match runs with
  | [] => (none, s1)
  | r0 :: _ =>
    let counts := runs.map (fun run => (run.id, (getEvaluationCount run.id s1 : Int)))
    let best := reduceBest counts (r0.id, -1)
    if best.2 > 0 then (some best.1, s1)
    else if runs.any (fun run => run.id = LEGACY_RUN_ID) then (some LEGACY_RUN_ID, s1)
    else (some r0.id, s1)

/-! ## Run comparator -/

/-- `comparisonScore(item)`: `final_score ?? final_rank_score ?? score`,
defaulting to `0`. -/
def comparisonScore (item : PREvaluation) : ℚ :=
  ((item.final_score <|> item.final_rank_score) <|> item.score).getD 0

/-- `comparisonJustification(item)`: an explicit non-blank
`justification`, else a non-blank `review_summary`, else the empty
string. -/
def comparisonJustification (item : PREvaluation) : String :=
  let fromReview := if jsTrim item.review_summary = "" then "" else item.review_summary
  match item.justification with
  | some j => if jsTrim j = "" then fromReview else j
  | none => fromReview

/-! Mathlib seals the `Rat` ring operations with `@[irreducible]`, so
`+ - * /` on `ℚ` cannot be evaluated by `decide`/`rfl`.  The comparator
arithmetic is therefore written with the following kernel-computable
equivalents, each proved equal to the standard operation below. -/

/-- Kernel-computable rational addition. -/
def qAdd (a b : ℚ) : ℚ := Rat.divInt (a.num * b.den + b.num * a.den) (a.den * b.den)

/-- Kernel-computable rational subtraction. -/
def qSub (a b : ℚ) : ℚ := qAdd a (-b)

/-- Kernel-computable rational multiplication. -/
def qMul (a b : ℚ) : ℚ := Rat.divInt (a.num * b.num) (a.den * b.den)

/-- Kernel-computable rational division. -/
def qDiv (a b : ℚ) : ℚ := Rat.divInt (a.num * b.den) (a.den * b.num)

theorem qAdd_eq (a b : ℚ) : qAdd a b = a + b := by
  have ha : (a.den : ℤ) ≠ 0 := by
    exact_mod_cast a.den_nz
  have hb : (b.den : ℤ) ≠ 0 := by
    exact_mod_cast b.den_nz
  rw [qAdd, ← Rat.divInt_add_divInt a.num b.num ha hb, Rat.num_divInt_den,
    Rat.num_divInt_den]

theorem qSub_eq (a b : ℚ) : qSub a b = a - b := by
  rw [qSub, qAdd_eq, sub_eq_add_neg]

theorem qMul_eq (a b : ℚ) : qMul a b = a * b := by
  have ha : (a.den : ℤ) ≠ 0 := by
    exact_mod_cast a.den_nz
  have hb : (b.den : ℤ) ≠ 0 := by
    exact_mod_cast b.den_nz
  rw [qMul, ← Rat.divInt_mul_divInt a.num b.num ha hb, Rat.num_divInt_den,
    Rat.num_divInt_den]

theorem qDiv_eq (a b : ℚ) : qDiv a b = a / b := by
  rcases eq_or_ne b 0 with hb0 | hb0
  · simp [qDiv, hb0, Rat.divInt_eq_div]
  · have ha : (a.den : ℤ) ≠ 0 := by
      exact_mod_cast a.den_nz
    have hbn : (b.num : ℤ) ≠ 0 := Rat.num_ne_zero.mpr hb0
    rw [qDiv, ← Rat.divInt_mul_divInt a.num (b.den : ℤ) ha hbn, Rat.num_divInt_den,
      div_eq_mul_inv, Rat.inv_def' b]

/-- `averageScore(items)`: arithmetic mean of comparison scores, `0`
for an empty collection. -/
def averageScore (items : List PREvaluation) : ℚ :=
  if items.length = 0 then 0
  else qDiv (items.foldl (fun sum item => qAdd sum (comparisonScore item)) 0)
    (items.length : ℚ)

/-- `Number(x.toFixed(4))`: round to four decimals, half away from zero
(ECMAScript `toFixed` extracts the sign before rounding and breaks a
tie upward on the magnitude). -/
def jsToFixed4 (x : ℚ) : ℚ :=
  if 0 ≤ x then Rat.divInt ⌊qAdd (qMul x 10000) (Rat.divInt 1 2)⌋ 10000
  else -(Rat.divInt ⌊qAdd (qMul (-x) 10000) (Rat.divInt 1 2)⌋ 10000)

/-- `jsToFixed4` over the standard operations. -/
theorem jsToFixed4_eq (x : ℚ) :
    jsToFixed4 x =
      if 0 ≤ x then ((⌊x * 10000 + 1 / 2⌋ : ℚ)) / 10000
      else -(((⌊-x * 10000 + 1 / 2⌋ : ℚ)) / 10000) := by
  have h2 : Rat.divInt 1 2 = (1 / 2 : ℚ) := by
    rw [Rat.divInt_eq_div]
    norm_num
  rw [jsToFixed4, qAdd_eq, qAdd_eq, qMul_eq, qMul_eq, h2, Rat.divInt_eq_div,
    Rat.divInt_eq_div]
  push_cast
  rfl

/-- Lookup in a JS `Map` built with `new Map(pairs)`: the last pair
with the key wins. -/
def mapLookup (pairs : List (Nat × α)) (k : Nat) : Option α :=
  pairs.foldl (fun acc p => if p.1 = k then some p.2 else acc) none

/-- First-occurrence deduplication, preserving order: the iteration
order of a JS `Set` (and of `Map` keys, whose position is fixed by the
first insertion). -/
def dedupFirstAux (seen : List Nat) : List Nat → List Nat
  | [] => []
  | a :: l => if a ∈ seen then dedupFirstAux seen l else a :: dedupFirstAux (a :: seen) l

/-- `dedupFirst l`: `l` with later duplicates removed. -/
def dedupFirst (l : List Nat) : List Nat := dedupFirstAux [] l

/-- 1-based ranks within one run: pair each item of the score-sorted
collection with its index + 1 (`new Map(sorted.map((item, i) => [item.pr_number, i + 1]))`). -/
def rankPairs (sorted : List PREvaluation) : List (Nat × Nat) :=
  sorted.enum.map (fun p => (p.2.pr_number, p.1 + 1))

/-- The absolute-delta sort key of a comparison row: `-1` for a `null`
delta, `Math.abs(delta)` otherwise. -/
def deltaKey (r : RunComparisonRow) : ℚ :=
  match r.delta with
  | none => -1
  | some d => |d|

/-- The body of the per-`pr_number` row construction loop of
`getRunComparison`. -/
def comparisonRow (evalsA evalsB : List PREvaluation) (prNumber : Nat) : RunComparisonRow :=
  let a := mapLookup (evalsA.map (fun e => (e.pr_number, e))) prNumber
  let b := mapLookup (evalsB.map (fun e => (e.pr_number, e))) prNumber
  let scoreA := a.map comparisonScore
  let scoreB := b.map comparisonScore
  let delta :=
    match scoreA, scoreB with
    | some x, some y => some (jsToFixed4 (qSub y x))
    | _, _ => none
  { pr_number := prNumber,
    title := ((a.map PREvaluation.title) <|> (b.map PREvaluation.title)).getD
      ("PR #" ++ toString prNumber),
    run_a_score := scoreA,
    run_b_score := scoreB,
    delta := delta,
    rank_a := mapLookup (rankPairs (sortByKeyDesc comparisonScore evalsA)) prNumber,
    rank_b := mapLookup (rankPairs (sortByKeyDesc comparisonScore evalsB)) prNumber,
    justification_a := (a.map comparisonJustification).getD "",
    justification_b := (b.map comparisonJustification).getD "" }

/-- The union of `pr_number` keys (`Set` iteration order: first
occurrence of A's keys then B's new ones). -/
def comparisonKeys (evalsA evalsB : List PREvaluation) : List Nat :=
  dedupFirst (evalsA.map (fun e => e.pr_number) ++ evalsB.map (fun e => e.pr_number))

/-- All comparison rows, sorted descending by absolute delta with a
`null` delta keyed `-1`. -/
def comparisonRows (evalsA evalsB : List PREvaluation) : List RunComparisonRow :=
  sortByKeyDesc deltaKey ((comparisonKeys evalsA evalsB).map (comparisonRow evalsA evalsB))

/-- `getRunComparison(runA, runB)` of `lib/store.ts`. -/
def getRunComparison (runA runB : String) (s : Store) : RunComparisonData :=
  let evalsA := getEvaluations (some runA) s
  let evalsB := getEvaluations (some runB) s
  { run_a :=
      { id := runA, meta := getRunMeta runA s, scored_count := evalsA.length,
        avg_score := jsToFixed4 (averageScore evalsA) },
    run_b :=
      { id := runB, meta := getRunMeta runB s, scored_count := evalsB.length,
        avg_score := jsToFixed4 (averageScore evalsB) },
    rows := comparisonRows evalsA evalsB }

/-! ## Retention / cleanup -/

/-- `deleteRun(runId)`: remove the run's whole key set (the five fixed
legacy keys for the legacy sentinel, the seven namespaced keys
otherwise) and drop the id from the registry.  Note the legacy branch
does not touch the sentinel's namespaced keys (in particular its meta
record survives). -/
def deleteRun (now : Nat) (runId : String) (s : Store) : Store :=
  let p := getRunIds now s
  let runIds := p.1
  let s1 := p.2
  if runId ∉ runIds then s1
  else
    let s2 :=
      if runId = LEGACY_RUN_ID then
        { s1 with
          legacySummary := none, legacyEvaluations := none,
          legacyClusters := none, legacyRanking := none, legacyTrace := none }
      else
        { s1 with
          meta := setF s1.meta runId none,
          promptBundle := setF s1.promptBundle runId none,
          summary := setF s1.summary runId none,
          evaluations := setF s1.evaluations runId none,
          clusters := setF s1.clusters runId none,
          ranking := setF s1.ranking runId none,
          trace := setF s1.trace runId none }
    { s2 with runs := some (runIds.filter (fun id => id ≠ runId)) }

/-- The protected set of `cleanupRuns` (a JS `Set`, insertion order,
falsy ids skipped): the reduce winner's id, then the selector's choice
if new. -/
def keepSet (legacyId : String) (bestRunId : Option String) : List String :=
  let keep0 : List String := if legacyId = "" then [] else [legacyId]
  match bestRunId with
  | none => keep0
  | some b => if b = "" then keep0 else if b ∈ keep0 then keep0 else keep0 ++ [b]

/-- The deletion loop of `cleanupRuns`: delete every listed run whose
id is not protected, accumulating the deleted ids in order. -/
def deleteLoop (now : Nat) (keep : List String) (runs : List RunMeta)
    (acc : List String × Store) : List String × Store :=
  runs.foldl
    (fun a run => if run.id ∈ keep then a else (a.1 ++ [run.id], deleteRun now run.id a.2))
    acc

/-- The pointer-healing tail of `cleanupRuns`: if the (self-healing)
pointer read still yields a run and it is unprotected, repoint to the
protected best run or clear. -/
def healPointer (now : Nat) (keep : List String) (bestRunId : Option String)
    (s3 : Store) : Store :=
  let c := getCurrentRunId now s3
  match c.1 with
  | none => c.2
  | some cur =>
    if cur ∈ keep then c.2
    else
      match bestRunId with
      | some b =>
        if b ≠ "" ∧ b ∈ keep then { c.2 with currentRunId := some b }
        else clearCurrentRunId c.2
      | none => clearCurrentRunId c.2

/-- `cleanupRuns()`: protect the run with the most evaluations
(first-seen tie-break) and the latest-run selection, delete every other
registered run, and heal the current-run pointer. -/
def cleanupRuns (now : Nat) (s : Store) : CleanupRunsResult × Store :=
  let p := getRuns now s
  let runs := p.1
  let s1 := p.2
  match runs with
  | [] =>
    ({ legacy_run_id := none, best_run_id := none,
       kept_run_ids := [], deleted_run_ids := [] }, s1)
  | r0 :: rest =>
    let legacyDataRun :=
      reduceBest (rest.map (fun run => (run.id, (getEvaluationCount run.id s1 : Int))))
        (r0.id, (getEvaluationCount r0.id s1 : Int))
    let q := getLatestRunId now s1
    let bestRunId := q.1
    let s2 := q.2
    let keep := keepSet legacyDataRun.1 bestRunId
    let loop := deleteLoop now keep (r0 :: rest) ([], s2)
    ({ legacy_run_id := some legacyDataRun.1, best_run_id := bestRunId,
       kept_run_ids := keep, deleted_run_ids := loop.1 },
      healPointer now keep bestRunId loop.2)

/-! ## Push API route (`app/api/push/route.ts`)

Authorization and JSON parsing happen before the modelled logic; the
route is embedded from the point where `type`, `data` and `run_id` are
in hand.  The discriminated payload is modelled as a sum type. -/

/-- The `data` payload of a push request, tagged by `type`. -/
inductive PushData where
  | summary (d : AnalysisSummary)
  | evaluation (d : PREvaluation)
  | evaluationsBatch (ds : List PREvaluation)
  | clusters (ds : List PRCluster)
  | ranking (d : JsonDoc)
  | pushTrace (ds : List AgentTraceStep)
deriving Repr, DecidableEq

/-- The route's `explicitRunId`: `run_id` when it is a string with
non-blank trim, else `null`. -/
def trimmedRunId (run_id : Option String) : Option String :=
  match run_id with
  | some x => if jsTrim x = "" then none else some (jsTrim x)
  | none => none

/-- The `POST` handler of the push route: resolve the run id (an
explicit trimmed `run_id`, else a fresh `createRunId()`), dispatch on
`type`, and mirror writes to the legacy keys when no explicit run id
was supplied.  Returns the `run_id` echoed in the JSON response. -/
def pushPOST (now : Nat) (run_id : Option String) (data : PushData) (s : Store) :
    String × Store :=
  let explicitRunId := trimmedRunId run_id
  let runId := explicitRunId.getD (createRunId now)
  let mirrorToLegacy := explicitRunId.isNone
  match data with
  | .summary d =>
    let s1 := setSummary now runId d s
    (runId, if mirrorToLegacy then setLegacySummary now d s1 else s1)
  | .evaluation d =>
    let s1 := appendEvaluation now runId d s
    (runId, if mirrorToLegacy then appendLegacyEvaluation d s1 else s1)
  | .evaluationsBatch ds =>
    (runId,
      ds.foldl
        (fun st ev =>
          let st1 := appendEvaluation now runId ev st
          if mirrorToLegacy then appendLegacyEvaluation ev st1 else st1)
        s)
  | .clusters ds =>
    let s1 := setClusters now runId ds s
    (runId, if mirrorToLegacy then setLegacyClusters ds s1 else s1)
  | .ranking d =>
    let s1 := setRanking now runId d s
    (runId, if mirrorToLegacy then setLegacyRanking d s1 else s1)
  | .pushTrace ds =>
    let s1 := setAgentTrace now runId ds s
    (runId, if mirrorToLegacy then setLegacyAgentTrace ds s1 else s1)

/-! ## Example states (used by witnesses and counterexamples) -/

/-- The empty KV table. -/
def egEmpty : Store where
  runs := none
  currentRunId := none
  meta := fun _ => none
  summary := fun _ => none
  evaluations := fun _ => none
  clusters := fun _ => none
  ranking := fun _ => none
  trace := fun _ => none
  promptBundle := fun _ => none
  legacySummary := none
  legacyEvaluations := none
  legacyClusters := none
  legacyRanking := none
  legacyTrace := none

/-- A short evaluation record constructor for examples. -/
def egEval (pr : Nat) (t : String) (sc : ℚ) : PREvaluation :=
  { pr_number := pr, title := t, final_score := some sc }

/-! ## Basic facts about migration and registry reads -/

/-- Migration either leaves the store untouched or (empty registry,
legacy data present) registers exactly the legacy sentinel. -/
theorem migration_eq (now : Nat) (s : Store) :
    ensureLegacyRunMigration now s = s ∨
    (registryOf s = [] ∧ hasLegacyData s = true ∧
      ensureLegacyRunMigration now s =
        { s with
          runs := some [LEGACY_RUN_ID],
          meta := setF s.meta LEGACY_RUN_ID
            (some { id := LEGACY_RUN_ID, timestamp := now }) }) := by
  unfold ensureLegacyRunMigration
  by_cases h1 : (s.runs.getD []).length > 0
  · left; simp [h1]
  · by_cases h2 : hasLegacyData s
    · right
      refine ⟨?_, h2, ?_⟩
      · have := List.eq_nil_of_length_eq_zero (Nat.eq_zero_of_not_pos h1)
        simpa [registryOf] using this
      · simp [h1, h2]
    · left; simp [h1, h2]

/-- A non-empty registry blocks migration entirely. -/
theorem migration_of_nonempty (now : Nat) (s : Store) (h : registryOf s ≠ []) :
    ensureLegacyRunMigration now s = s := by
  unfold ensureLegacyRunMigration
  have : (s.runs.getD []).length > 0 := by
    have : registryOf s ≠ [] := h
    simpa [registryOf, List.length_pos] using this
  simp [this]

/-- `getRunIds` on a non-empty registry is a pure read. -/
theorem getRunIds_of_nonempty (now : Nat) (s : Store) (h : registryOf s ≠ []) :
    getRunIds now s = (registryOf s, s) := by
  simp [getRunIds, migration_of_nonempty now s h, registryOf]

/-- The list returned by `getRunIds` is the registry of its result
state. -/
theorem registry_getRunIds (now : Nat) (s : Store) :
    registryOf (getRunIds now s).2 = (getRunIds now s).1 := by
  rcases migration_eq now s with h | ⟨_, _, h⟩ <;> simp [getRunIds, h, registryOf]

/-- The registry returned by `getRunIds` is non-empty unless the store
has neither runs nor legacy data. -/
theorem migration_currentRunId (now : Nat) (s : Store) :
    (ensureLegacyRunMigration now s).currentRunId = s.currentRunId := by
  rcases migration_eq now s with h | ⟨_, _, h⟩ <;> simp [h]

/-- Migration does not touch the evaluation keys. -/
theorem migration_evaluations (now : Nat) (s : Store) :
    (ensureLegacyRunMigration now s).evaluations = s.evaluations := by
  rcases migration_eq now s with h | ⟨_, _, h⟩ <;> simp [h]

/-- Migration does not touch the legacy collection keys. -/
theorem migration_legacyEvaluations (now : Nat) (s : Store) :
    (ensureLegacyRunMigration now s).legacyEvaluations = s.legacyEvaluations := by
  rcases migration_eq now s with h | ⟨_, _, h⟩ <;> simp [h]

/-! ## C10 — unrecognized run events write nothing -/

/-- C10: for every run id and every event whose `event` field is
neither `"completed"` nor `"failed"`, `appendRunEvent` performs no
write at all: the resulting store (metadata, registry and every other
key) is exactly the input store. -/
theorem appendRunEvent_no_write (now : Nat) (runId : String) (ev : RunEvent) (s : Store)
    (h1 : ev.event ≠ "completed") (h2 : ev.event ≠ "failed") :
    appendRunEvent now runId ev s = s := by
  simp [appendRunEvent, h1, h2]

/-- Witness for C10 at a concrete unrecognized event. -/
theorem appendRunEvent_no_write_witness :
    appendRunEvent 7 "1700000000000" { event := "progress" } egEmpty = egEmpty :=
  appendRunEvent_no_write 7 "1700000000000" { event := "progress" } egEmpty
    (by decide) (by decide)

/-! ## C7 — legacy migration is one-shot -/

/-- C7: migration writes the registry (the singleton legacy list plus a
fresh legacy metadata record) only when the registry is empty and some
legacy collection is non-empty; with a non-empty registry any sequence
of run-listing calls leaves the store unchanged, and the legacy-data
setters never touch the registry. -/
theorem legacy_migration_once (now : Nat) (s : Store) :
    (registryOf s ≠ [] → ensureLegacyRunMigration now s = s) ∧
    (hasLegacyData s = false → ensureLegacyRunMigration now s = s) ∧
    (registryOf s = [] → hasLegacyData s = true →
      (ensureLegacyRunMigration now s).runs = some [LEGACY_RUN_ID] ∧
      (ensureLegacyRunMigration now s).meta LEGACY_RUN_ID =
        some { id := LEGACY_RUN_ID, timestamp := now }) ∧
    (registryOf s ≠ [] →
      ∀ nows : List Nat, nows.foldl (fun st n => (getRunIds n st).2) s = s) ∧
    (∀ d, registryOf (setLegacyEvaluations d s) = registryOf s) ∧
    (∀ n d, registryOf (setLegacySummary n d s) = registryOf s) ∧
    (∀ d, registryOf (setLegacyClusters d s) = registryOf s) ∧
    (∀ d, registryOf (setLegacyRanking d s) = registryOf s) ∧
    (∀ d, registryOf (setLegacyAgentTrace d s) = registryOf s) := by
  refine ⟨fun h => migration_of_nonempty now s h, ?_, ?_, ?_, ?_, ?_, ?_, ?_, ?_⟩
  · intro h
    unfold ensureLegacyRunMigration
    by_cases h1 : (s.runs.getD []).length > 0 <;> simp [h1, h]
  · intro hreg hdata
    rcases migration_eq now s with h | ⟨_, _, h⟩
    · exfalso
      unfold ensureLegacyRunMigration at h
      have h0 : (s.runs.getD []).length = 0 := by
        simpa [registryOf] using congrArg List.length hreg
      have : ¬ (s.runs.getD []).length > 0 := by omega
      rw [if_neg this, if_neg (by simp [hdata])] at h
      have := congrArg Store.runs h
      simp at this
      rw [registryOf] at hreg
      rcases hr : s.runs with _ | l
      · simp [hr] at this
      · have : l = [] := by simpa [registryOf, hr] using hreg
        simp [hr, this] at *
    · simp [h, setF]
  · intro h nows
    induction nows with
    | nil => rfl
    | cons n t ih =>
      have hstep : (getRunIds n s).2 = s := by
        rw [getRunIds_of_nonempty n s h]
      simpa [hstep] using ih
  · intro d; rfl
  · intro n d; rfl
  · intro d; rfl
  · intro d; rfl
  · intro d; rfl

/-- Witness for C7: a non-empty registry is left untouched by
migration. -/
theorem legacy_migration_once_witness :
    ensureLegacyRunMigration 3 { egEmpty with runs := some ["r1"] } =
      { egEmpty with runs := some ["r1"] } :=
  (legacy_migration_once 3 { egEmpty with runs := some ["r1"] }).1 (by decide)

/-! ## Frame lemmas for `ensureRun` -/

/-- `ensureRun` only writes the registry and a metadata key on top of
migration. -/
theorem ensureRun_eq (now : Nat) (runId : String) (s : Store) :
    ∃ l m, ensureRun now runId s =
      { ensureLegacyRunMigration now s with runs := l, meta := m } := by
  unfold ensureRun getRunIds
  dsimp only
  split
  · split <;> exact ⟨_, _, rfl⟩
  · split <;> exact ⟨_, _, rfl⟩

theorem ensureRun_currentRunId (now : Nat) (runId : String) (s : Store) :
    (ensureRun now runId s).currentRunId = s.currentRunId := by
  obtain ⟨l, m, h⟩ := ensureRun_eq now runId s
  rw [h]
  exact migration_currentRunId now s

theorem ensureRun_evaluations (now : Nat) (runId : String) (s : Store) :
    (ensureRun now runId s).evaluations = s.evaluations := by
  obtain ⟨l, m, h⟩ := ensureRun_eq now runId s
  rw [h]
  exact migration_evaluations now s

theorem ensureRun_legacyEvaluations (now : Nat) (runId : String) (s : Store) :
    (ensureRun now runId s).legacyEvaluations = s.legacyEvaluations := by
  obtain ⟨l, m, h⟩ := ensureRun_eq now runId s
  rw [h]
  exact migration_legacyEvaluations now s

/-! ## C6 — the current-run pointer never dangles -/

/-- C6: `getCurrentRunId` returns `null` or an id contained in the run
listing of the resulting state; when the stored pointer names a run id
(a non-blank string) absent from the listing, the pointer key is
cleared and `null` returned. -/
theorem getCurrentRunId_no_dangling (now : Nat) (s : Store) :
    (∀ id, (getCurrentRunId now s).1 = some id →
      id ∈ (getRunIds now (getCurrentRunId now s).2).1) ∧
    (∀ id, s.currentRunId = some id → id ≠ "" → id ∉ (getRunIds now s).1 →
      (getCurrentRunId now s).1 = none ∧
      (getCurrentRunId now s).2.currentRunId = none) := by
  constructor
  · intro id hid
    unfold getCurrentRunId at hid ⊢
    cases hcur : s.currentRunId with
    | none => rw [hcur] at hid; simp at hid
    | some rid =>
      rw [hcur] at hid
      dsimp only at hid ⊢
      by_cases hblank : rid = ""
      · simp [hblank] at hid
      · rw [if_neg hblank] at hid ⊢
        by_cases hmem : rid ∈ (getRunIds now s).1
        · simp only [hmem, if_pos, if_true] at hid ⊢
          have hideq : id = rid := by simpa using hid.symm
          subst hideq
          have hreg := registry_getRunIds now s
          have hne : registryOf (getRunIds now s).2 ≠ [] := by
            rw [hreg]; exact List.ne_nil_of_mem hmem
          rw [getRunIds_of_nonempty now _ hne, hreg]
          exact hmem
        · simp [hmem] at hid
  · intro id hcur hblank hmem
    simp [getCurrentRunId, hcur, hblank, hmem, clearCurrentRunId]

/-- A dangling-pointer state for the C6 witness. -/
def exC6state : Store := { egEmpty with runs := some ["A"], currentRunId := some "Z" }

/-- Witness for C6: a pointer at a deleted run is cleared and `null`
returned. -/
theorem getCurrentRunId_no_dangling_witness :
    (getCurrentRunId 0 exC6state).1 = none ∧
    (getCurrentRunId 0 exC6state).2.currentRunId = none :=
  (getCurrentRunId_no_dangling 0 exC6state).2 "Z" (by decide) (by decide) (by decide)

/-! ## C1 — pointer-less pushes do not use the current-run pointer -/

/-- Evaluation payloads for the C1 scenario. -/
def evC1a : PREvaluation := egEval 1 "a" 5

def evC1b : PREvaluation := egEval 2 "b" 6

/-- A state whose current-run pointer names the registered run `"X"`. -/
def exC1state : Store :=
  { egEmpty with
    runs := some ["X"], currentRunId := some "X",
    meta := fun id => if id = "X" then some { id := "X", timestamp := 5 } else none }

/-- The state after the first pointer-less evaluation push (at clock
1000). -/
def exC1s1 : Store := (pushPOST 1000 none (.evaluation evC1a) exC1state).2

/-- The state after the second pointer-less evaluation push (at clock
2000). -/
def exC1s2 : Store := (pushPOST 2000 none (.evaluation evC1b) exC1s1).2

/-- C1 counterexample: with the current-run pointer set to the
registered run `"X"`, two successive pointer-less pushes are written
under the fresh ids `"1000"` and `"2000"` — two different runs, neither
of them the pointer target — and the pointer key is never read or
repointed.  The claim that the run id is obtained from the Current-Run
Pointer (hence that both writes land in the same run) fails. -/
theorem pushPOST_pointer_counterexample :
    (pushPOST 1000 none (.evaluation evC1a) exC1state).1 = "1000" ∧
    (pushPOST 2000 none (.evaluation evC1b) exC1s1).1 = "2000" ∧
    exC1state.currentRunId = some "X" ∧
    exC1s2.currentRunId = some "X" ∧
    getEvaluations (some "1000") exC1s2 = [evC1a] ∧
    getEvaluations (some "2000") exC1s2 = [evC1b] ∧
    getEvaluations (some "X") exC1s2 = [] := by
  decide

/-- C1 amended: a push whose body has no usable `run_id` (absent or
blank after trimming) is written under a fresh `createRunId()` (the
request clock), and the Current-Run Pointer is neither consulted nor
updated; pushes at distinct clocks therefore land in distinct runs. -/
theorem pushPOST_pointerless (now : Nat) (run_id : Option String) (data : PushData)
    (s : Store) (h : trimmedRunId run_id = none) :
    (pushPOST now run_id data s).1 = createRunId now ∧
    (pushPOST now run_id data s).2.currentRunId = s.currentRunId := by
  have hlegacy : ∀ (ev : PREvaluation) (st : Store),
      (appendLegacyEvaluation ev st).currentRunId = st.currentRunId := by
    intro ev st
    unfold appendLegacyEvaluation
    try dsimp only
    split <;> rfl
  have happend : ∀ (n : Nat) (rid : String) (ev : PREvaluation) (st : Store),
      (appendEvaluation n rid ev st).currentRunId = st.currentRunId := by
    intro n rid ev st
    unfold appendEvaluation
    try dsimp only
    split <;> simp [setEvaluations, ensureRun_currentRunId]
  cases data with
  | summary d =>
    refine ⟨by simp [pushPOST, h], ?_⟩
    simp [pushPOST, h, setLegacySummary, setSummary, ensureRun_currentRunId]
  | evaluation d =>
    refine ⟨by simp [pushPOST, h], ?_⟩
    simp [pushPOST, h, hlegacy, happend]
  | evaluationsBatch ds =>
    refine ⟨by simp [pushPOST, h], ?_⟩
    simp only [pushPOST, h]
    try dsimp only
    induction ds generalizing s with
    | nil => rfl
    | cons e t ih =>
      simp only [List.foldl_cons]
      rw [ih]
      simp [Option.isNone, hlegacy, happend, trimmedRunId, h]
  | clusters ds =>
    refine ⟨by simp [pushPOST, h], ?_⟩
    simp [pushPOST, h, setLegacyClusters, setClusters, ensureRun_currentRunId]
  | ranking d =>
    refine ⟨by simp [pushPOST, h], ?_⟩
    simp [pushPOST, h, setLegacyRanking, setRanking, ensureRun_currentRunId]
  | pushTrace ds =>
    refine ⟨by simp [pushPOST, h], ?_⟩
    simp [pushPOST, h, setLegacyAgentTrace, setAgentTrace, ensureRun_currentRunId]

/-- Witness for C1 (amended) at a blank `run_id`. -/
theorem pushPOST_pointerless_witness :
    (pushPOST 1000 (some "  ") (.evaluation evC1a) exC1state).1 = createRunId 1000 ∧
    (pushPOST 1000 (some "  ") (.evaluation evC1a) exC1state).2.currentRunId =
      exC1state.currentRunId :=
  pushPOST_pointerless 1000 (some "  ") (.evaluation evC1a) exC1state (by decide)

/-! ## C3 — the evaluation upsert -/

/-- Replacing the first match of a one-match list leaves the new
element as the only match. -/
theorem filter_set_of_first_match {α : Type} (p : α → Bool) :
    ∀ (l : List α) (i : Nat) (a : α), l.findIdx? p = some i →
      l.countP p ≤ 1 → p a = true → (l.set i a).filter p = [a] := by
  intro l
  induction l with
  | nil => intro i a hfind; simp at hfind
  | cons x t ih =>
    intro i a hfind hcount hpa
    obtain ⟨hlt, hpi, hbefore⟩ := List.findIdx?_eq_some_iff_getElem.mp hfind
    cases i with
    | zero =>
      have hpx : p x = true := by simpa using hpi
      have hct : t.countP p = 0 := by
        have := List.countP_cons_of_pos p t hpx
        omega
      have htf : t.filter p = [] := by
        rw [List.filter_eq_nil_iff]
        intro b hb
        have := List.countP_eq_zero.mp hct b hb
        simpa using this
      simp [List.set_cons_zero, List.filter_cons, hpa, htf]
    | succ j =>
      have hpx : ¬ p x = true := by simpa using hbefore 0 (Nat.succ_pos j)
      have hjlt : j < t.length := by simpa using hlt
      have hfind' : t.findIdx? p = some j := by
        refine List.findIdx?_eq_some_iff_getElem.mpr ⟨hjlt, ?_, ?_⟩
        · simpa using hpi
        · intro k hk
          simpa using hbefore (k + 1) (by omega)
      have hcount' : t.countP p ≤ 1 := by
        have := List.countP_cons_of_neg p t (by simpa using hpx)
        omega
      have : (x :: t).set (j + 1) a = x :: t.set j a := rfl
      rw [this, List.filter_cons]
      simp only [hpx, if_false]
      simpa using ih j a hfind' hcount' hpa

/-- C3 amended: for every run id outside the legacy scope (not blank,
not `"latest"`, not the legacy sentinel), `appendEvaluation` is a keyed
upsert on the run's collection: an existing `pr_number` is replaced in
place (length unchanged), a new one is appended (length + 1), and when
the prior collection held at most one record for the key, the key's
only record afterwards is the incoming one. -/
theorem appendEvaluation_upsert (now : Nat) (runId : String) (ev : PREvaluation)
    (s : Store) (h : isLegacyScope (some runId) = false) :
    (∀ i, (getEvaluations (some runId) s).findIdx?
        (fun e => e.pr_number = ev.pr_number) = some i →
      getEvaluations (some runId) (appendEvaluation now runId ev s) =
        (getEvaluations (some runId) s).set i ev ∧
      (getEvaluations (some runId) (appendEvaluation now runId ev s)).length =
        (getEvaluations (some runId) s).length) ∧
    ((getEvaluations (some runId) s).findIdx?
        (fun e => e.pr_number = ev.pr_number) = none →
      getEvaluations (some runId) (appendEvaluation now runId ev s) =
        getEvaluations (some runId) s ++ [ev] ∧
      (getEvaluations (some runId) (appendEvaluation now runId ev s)).length =
        (getEvaluations (some runId) s).length + 1) ∧
    ((getEvaluations (some runId) s).countP
        (fun e => e.pr_number = ev.pr_number) ≤ 1 →
      (getEvaluations (some runId) (appendEvaluation now runId ev s)).filter
        (fun e => e.pr_number = ev.pr_number) = [ev]) := by
  have hread : ∀ data, getEvaluations (some runId) (setEvaluations now runId data s) = data := by
    intro data
    simp [getEvaluations, h, setEvaluations, setF]
  refine ⟨?_, ?_, ?_⟩
  · intro i hfind
    have heq : appendEvaluation now runId ev s =
        setEvaluations now runId ((getEvaluations (some runId) s).set i ev) s := by
      unfold appendEvaluation
      try dsimp only
      rw [hfind]
    rw [heq, hread]
    exact ⟨rfl, by simp⟩
  · intro hfind
    have heq : appendEvaluation now runId ev s =
        setEvaluations now runId (getEvaluations (some runId) s ++ [ev]) s := by
      unfold appendEvaluation
      try dsimp only
      rw [hfind]
    rw [heq, hread]
    exact ⟨rfl, by simp⟩
  · intro hcount
    cases hfind : (getEvaluations (some runId) s).findIdx?
        (fun e => e.pr_number = ev.pr_number) with
    | some i =>
      have heq : appendEvaluation now runId ev s =
          setEvaluations now runId ((getEvaluations (some runId) s).set i ev) s := by
        unfold appendEvaluation
        try dsimp only
        rw [hfind]
      rw [heq, hread]
      exact filter_set_of_first_match _ _ i ev hfind hcount (by simp)
    | none =>
      have heq : appendEvaluation now runId ev s =
          setEvaluations now runId (getEvaluations (some runId) s ++ [ev]) s := by
        unfold appendEvaluation
        try dsimp only
        rw [hfind]
      rw [heq, hread, List.filter_append]
      have hnil : (getEvaluations (some runId) s).filter
          (fun e => e.pr_number = ev.pr_number) = [] := by
        rw [List.filter_eq_nil_iff]
        intro b hb
        exact (List.findIdx?_eq_none_iff.mp hfind b hb) ▸ (by simp)
      rw [hnil]
      simp

/-- An evaluation for PR 7 used in the C3 scenario. -/
def evC3 : PREvaluation := egEval 7 "x" (17 / 2)

/-- A registered legacy run with an empty legacy evaluation
collection. -/
def exC3state : Store :=
  { egEmpty with runs := some [LEGACY_RUN_ID], legacyEvaluations := some [] }

/-- C3 counterexample: for the registered legacy run,
`appendEvaluation` reads the legacy collection but writes the
run-namespaced key, so appending a fresh `pr_number` does not grow the
run's readable collection (length stays 0 instead of 1) — the write
lands on a key the reader never consults. -/
theorem appendEvaluation_counterexample :
    getEvaluations (some LEGACY_RUN_ID)
      (appendEvaluation 0 LEGACY_RUN_ID evC3 exC3state) = [] ∧
    (appendEvaluation 0 LEGACY_RUN_ID evC3 exC3state).evaluations LEGACY_RUN_ID =
      some [evC3] :=
  ⟨rfl, rfl⟩

/-- Witness for C3 (amended): two appends for PR 7 (scores 8.5 then
9.1) to the ordinary run `"123"` leave exactly one record for PR 7, the
later one. -/
theorem appendEvaluation_upsert_witness :
    (getEvaluations (some "123")
      (appendEvaluation 6 "123" (egEval 7 "t" (91 / 10))
        (appendEvaluation 5 "123" (egEval 7 "t" (17 / 2)) egEmpty))).filter
      (fun e => e.pr_number = (egEval 7 "t" (91 / 10)).pr_number) =
      [egEval 7 "t" (91 / 10)] :=
  (appendEvaluation_upsert 6 "123" (egEval 7 "t" (91 / 10))
    (appendEvaluation 5 "123" (egEval 7 "t" (17 / 2)) egEmpty) (by decide)).2.2
    (by decide)

/-! ## Stable-sort lemmas -/

/-- Insertion keeps membership (as a permutation). -/
theorem insertByKeyDesc_perm [LinearOrder β] (key : α → β) (a : α) (l : List α) :
    (insertByKeyDesc key a l).Perm (a :: l) := by
  induction l with
  | nil => simp [insertByKeyDesc]
  | cons b t ih =>
    rw [insertByKeyDesc]
    by_cases hb : key b > key a
    · rw [if_pos hb]
      exact (ih.cons b).trans (List.Perm.swap a b t)
    · rw [if_neg hb]

/-- The sort is a permutation of its input. -/
theorem sortByKeyDesc_perm [LinearOrder β] (key : α → β) (l : List α) :
    (sortByKeyDesc key l).Perm l := by
  induction l with
  | nil => simp [sortByKeyDesc]
  | cons a t ih =>
    rw [sortByKeyDesc]
    exact (insertByKeyDesc_perm key a (sortByKeyDesc key t)).trans (ih.cons a)

/-- Inserting into a descending list keeps it descending. -/
theorem insertByKeyDesc_pairwise [LinearOrder β] (key : α → β) (a : α) (l : List α)
    (h : l.Pairwise (fun x y => key y ≤ key x)) :
    (insertByKeyDesc key a l).Pairwise (fun x y => key y ≤ key x) := by
  induction l with
  | nil => simp [insertByKeyDesc]
  | cons b t ih =>
    rcases List.pairwise_cons.mp h with ⟨hbt, ht⟩
    rw [insertByKeyDesc]
    by_cases hb : key b > key a
    · rw [if_pos hb]
      refine List.pairwise_cons.mpr ⟨?_, ih ht⟩
      intro x hx
      rcases List.mem_cons.mp (((insertByKeyDesc_perm key a t).mem_iff).mp hx) with hxa | hxt
      · rw [hxa]; exact le_of_lt hb
      · exact hbt x hxt
    · rw [if_neg hb]
      push_neg at hb
      refine List.pairwise_cons.mpr ⟨?_, h⟩
      intro x hx
      rcases List.mem_cons.mp hx with hxb | hxt
      · rw [hxb]; exact hb
      · exact le_trans (hbt x hxt) hb

/-- The sort output is descending in the key. -/
theorem sortByKeyDesc_pairwise [LinearOrder β] (key : α → β) (l : List α) :
    (sortByKeyDesc key l).Pairwise (fun x y => key y ≤ key x) := by
  induction l with
  | nil => simp [sortByKeyDesc]
  | cons a t ih => exact insertByKeyDesc_pairwise key a _ ih

/-! ## C2 — ordering of comparison rows -/

/-- Two runs producing one shared item (computed delta) and one item
present only in run A (`null` delta). -/
def exC2state : Store :=
  { egEmpty with
    runs := some ["A", "B"],
    evaluations := fun id =>
      if id = "A" then some [egEval 1 "t1" 5, egEval 2 "t2" 3]
      else if id = "B" then some [egEval 1 "t1b" 7]
      else none }

/-- C2 counterexample: the comparison of runs `"A"` and `"B"` yields the
computed-delta row (PR 1, delta 2) FIRST and the `null`-delta row
(PR 2, present only in run A) LAST — the code keys a `null` delta as
`-1`, which sorts after every computed delta in the descending order,
not before. -/
theorem comparison_rows_counterexample :
    ((getRunComparison "A" "B" exC2state).rows.map (fun r => r.delta)) =
      [some 2, none] := by
  decide

/-- C2 amended: comparison rows are sorted by descending absolute
delta with a `null` delta keyed as `-1`; consequently every `null`-delta
row sorts after (not before) every computed-delta row. -/
theorem comparison_rows_sorted (s : Store) (runA runB : String) :
    ((getRunComparison runA runB s).rows).Pairwise
      (fun x y => deltaKey y ≤ deltaKey x) ∧
    ((getRunComparison runA runB s).rows).Pairwise
      (fun x y => x.delta = none → y.delta = none) := by
  have h1 : ((getRunComparison runA runB s).rows).Pairwise
      (fun x y => deltaKey y ≤ deltaKey x) := by
    simpa [getRunComparison, comparisonRows] using
      sortByKeyDesc_pairwise deltaKey
        ((comparisonKeys (getEvaluations (some runA) s) (getEvaluations (some runB) s)).map
          (comparisonRow (getEvaluations (some runA) s) (getEvaluations (some runB) s)))
  refine ⟨h1, h1.imp ?_⟩
  intro x y hxy hxnone
  cases hy : y.delta with
  | none => rfl
  | some d =>
    exfalso
    rw [deltaKey, deltaKey, hxnone, hy] at hxy
    dsimp only at hxy
    have : (0 : ℚ) ≤ |d| := abs_nonneg d
    linarith

/-! ## C5 — the latest-run selector -/

/-- The running maximum of the counts seen by the reduce, starting from
`a`. -/
def sndMax (a : String × Int) (l : List (String × Int)) : Int :=
  l.foldl (fun m c => max m c.2) a.2

theorem le_foldl_max (l : List (String × Int)) (b : Int) :
    b ≤ l.foldl (fun m c => max m c.2) b := by
  induction l generalizing b with
  | nil => exact le_refl b
  | cons c t ih => exact le_trans (le_max_left b c.2) (ih (max b c.2))

theorem le_sndMax_init (a : String × Int) (l : List (String × Int)) :
    a.2 ≤ sndMax a l :=
  le_foldl_max l a.2

/-- The strict-improvement reduce finds the first element attaining the
maximum count. -/
theorem find?_reduceBest (l : List (String × Int)) :
    ∀ a : String × Int,
      (a :: l).find? (fun c => c.2 = sndMax a l) = some (reduceBest l a) := by
  induction l with
  | nil =>
    intro a
    have hpa : decide (a.2 = sndMax a []) = true := by
      simp [sndMax]
    simp [List.find?_cons, hpa, reduceBest]
  | cons c t ih =>
    intro a
    have hstep : sndMax a (c :: t) = sndMax (if c.2 > a.2 then c else a) t := by
      by_cases h : c.2 > a.2
      · simp [sndMax, h, max_eq_right (le_of_lt h)]
      · simp [sndMax, h, max_eq_left (not_lt.mp h)]
    have hred : reduceBest (c :: t) a = reduceBest t (if c.2 > a.2 then c else a) := rfl
    rw [hred, hstep]
    by_cases h : c.2 > a.2
    · rw [if_pos h] at hstep ⊢
      have haM : decide (a.2 = sndMax c t) = false := by
        have hM : c.2 ≤ sndMax c t := le_sndMax_init c t
        simp only [decide_eq_false_iff_not]
        omega
      rw [List.find?_cons, haM]
      exact ih c
    · rw [if_neg h] at hstep ⊢
      rcases hb : decide (a.2 = sndMax a t) with _ | _
      · have hM : a.2 ≤ sndMax a t := le_sndMax_init a t
        have haM : a.2 ≠ sndMax a t := by
          simpa using hb
        have hcM : decide (c.2 = sndMax a t) = false := by
          simp only [decide_eq_false_iff_not]
          push_neg at h
          omega
        rw [List.find?_cons, hb, List.find?_cons, hcM]
        have := ih a
        rw [List.find?_cons, hb] at this
        exact this
      · rw [List.find?_cons, hb]
        have := ih a
        rw [List.find?_cons, hb] at this
        exact this

theorem natCast_foldl_max (l : List Nat) (b : Nat) :
    ((l.foldl max b : Nat) : Int) = (l.map Int.ofNat).foldl max (b : Int) := by
  induction l generalizing b with
  | nil => rfl
  | cons c t ih =>
    simp only [List.foldl_cons, List.map_cons]
    rw [ih]
    have : ((max b c : Nat) : Int) = max (b : Int) (Int.ofNat c) := by
      rw [Nat.cast_max]
      rfl
    rw [this]

/-- The latest-run selector as the claim words it: pick the first run
of the reverse-chronological listing attaining the maximum
evaluation count; on an all-zero maximum prefer the registered legacy
sentinel, else the first listed run; `null` only without runs.
(Spec-shaped definition, for comparison with `getLatestRunId`.) -/
def getLatestRunIdSpec (runs : List RunMeta) (countOf : String → Nat) : Option String :=
  match runs with
  | [] => none
  | r0 :: _ =>
    let mx := (runs.map (fun r => countOf r.id)).foldl max 0
    if 0 < mx then (runs.find? (fun r => countOf r.id = mx)).map (fun r => r.id)
    else if runs.any (fun r => r.id = LEGACY_RUN_ID) then some LEGACY_RUN_ID
    else some r0.id

/-- The no-seed `reduce` of the selector equals the claim's
first-arg-max `find?`: its count is the maximum count, and mapping the
first run attaining the maximum to its id recovers the reduce
winner. -/
theorem reduce_matches_spec (r0 : RunMeta) (rest : List RunMeta) (count : String → Nat) :
    (reduceBest ((r0 :: rest).map (fun run => (run.id, (count run.id : Int)))) (r0.id, -1)).2 =
      ((((r0 :: rest).map (fun r => count r.id)).foldl max 0 : Nat) : Int) ∧
    (((r0 :: rest).find? (fun r =>
        count r.id = (((r0 :: rest).map (fun r => count r.id)).foldl max 0 : Nat))).map
      (fun r => r.id)) =
      some (reduceBest ((r0 :: rest).map (fun run => (run.id, (count run.id : Int))))
        (r0.id, -1)).1 := by
  set f : RunMeta → String × Int := fun run => (run.id, (count run.id : Int)) with hf
  set mx : Nat := ((r0 :: rest).map (fun r => count r.id)).foldl max 0 with hmxdef
  have hseed : reduceBest ((r0 :: rest).map f) (r0.id, -1) =
      reduceBest (rest.map f) (f r0) := by
    have hpos : ((f r0).2 > (-1 : Int)) := by
      simp only [hf]
      omega
    simp [reduceBest, List.foldl_cons, hpos]
  rw [hseed]
  have hfind := find?_reduceBest (rest.map f) (f r0)
  have hbestM : (reduceBest (rest.map f) (f r0)).2 = sndMax (f r0) (rest.map f) := by
    have h := List.find?_some hfind
    simpa using h
  have hmx : sndMax (f r0) (rest.map f) = ((mx : Nat) : Int) := by
    rw [hmxdef, sndMax, List.foldl_map, List.map_cons, List.foldl_cons]
    have h0 : max 0 (count r0.id) = count r0.id := Nat.zero_max _
    rw [h0, natCast_foldl_max, List.map_map, List.foldl_map]
    rfl
  refine ⟨hbestM.trans hmx, ?_⟩
  rw [hmx] at hfind
  have hpredeq : ((fun c : String × Int => decide (c.2 = (mx : Int))) ∘ f) =
      (fun r : RunMeta => decide (count r.id = mx)) := by
    funext r
    simp [hf, Function.comp, Int.natCast_inj]
  have hfind2 : (((r0 :: rest).find? (fun r => decide (count r.id = mx))).map f) =
      some (reduceBest (rest.map f) (f r0)) := by
    rw [← hpredeq, ← List.find?_map, List.map_cons]
    exact hfind
  cases hfr : (r0 :: rest).find? (fun r => decide (count r.id = mx)) with
  | none =>
    rw [hfr] at hfind2
    exact absurd hfind2 (by simp)
  | some rstar =>
    rw [hfr] at hfind2
    have hfb : f rstar = reduceBest (rest.map f) (f r0) := by
      simpa using hfind2
    rw [← hfb]
    simp [hf]

/-- C5: `getLatestRunId` returns exactly what the claim describes: the
first run (in the reverse-chronological listing) with the maximum
evaluation-collection length; if that maximum is zero, the legacy
sentinel when registered, else the first listed run; and `null` only
when no runs are registered. -/
theorem getLatestRunId_spec (now : Nat) (s : Store) :
    (getLatestRunId now s).1 =
      getLatestRunIdSpec (getRuns now s).1
        (fun id => getEvaluationCount id (getRuns now s).2) := by
  unfold getLatestRunId
  cases hruns : (getRuns now s).1 with
  | nil => simp [getLatestRunIdSpec, hruns]
  | cons r0 rest =>
    dsimp only
    rw [hruns]
    try dsimp only
    obtain ⟨h2, h1⟩ :=
      reduce_matches_spec r0 rest (fun id => getEvaluationCount id (getRuns now s).2)
    try dsimp only at h2 h1
    simp only [getLatestRunIdSpec]
    try dsimp only
    by_cases hpos : (reduceBest ((r0 :: rest).map
        (fun run => (run.id, (getEvaluationCount run.id (getRuns now s).2 : Int))))
        (r0.id, -1)).2 > 0
    · rw [if_pos hpos]
      have hmxpos : 0 < (((r0 :: rest).map
          (fun r => getEvaluationCount r.id (getRuns now s).2)).foldl max 0 : Nat) := by
        rw [h2] at hpos
        omega
      rw [if_pos hmxpos]
      exact h1.symm
    · rw [if_neg hpos]
      have hmx0 : ¬ 0 < (((r0 :: rest).map
          (fun r => getEvaluationCount r.id (getRuns now s).2)).foldl max 0 : Nat) := by
        rw [h2] at hpos
        omega
      rw [if_neg hmx0]
      by_cases hany : ((r0 :: rest).any fun run => decide (run.id = LEGACY_RUN_ID)) = true
      · simp [hany]
      · simp [hany]

/-- Witness-style instance of C5 (the theorem has no hypotheses; this
records the spec's end-to-end scenario: run `"A"` with 2 evaluations
beats run `"B"` with 1). -/
theorem getLatestRunId_spec_witness :
    (getLatestRunId 0 exC2state).1 = some "A" := by
  decide

/-! ## C9 — `ensureRun` registers an id exactly once -/

/-- The store's mutating and reading operations other than
`deleteRun`/`cleanupRuns` (the claim interleaves `ensureRun` with
operations that do not delete the run). -/
inductive StoreOp where
  | ensureRunOp (now : Nat) (id : String)
  | setEvaluationsOp (now : Nat) (id : String) (data : List PREvaluation)
  | appendEvaluationOp (now : Nat) (id : String) (ev : PREvaluation)
  | setSummaryOp (now : Nat) (id : String) (d : AnalysisSummary)
  | setClustersOp (now : Nat) (id : String) (d : List PRCluster)
  | setRankingOp (now : Nat) (id : String) (d : JsonDoc)
  | setAgentTraceOp (now : Nat) (id : String) (d : List AgentTraceStep)
  | setRunMetaOp (now : Nat) (id : String) (p : RunMetaPatch)
  | appendRunEventOp (now : Nat) (id : String) (ev : RunEvent)
  | getRunIdsOp (now : Nat)
  | getCurrentRunIdOp (now : Nat)
  | getOrCreateCurrentRunIdOp (now : Nat)
  | clearCurrentRunIdOp
  | setLegacyEvaluationsOp (d : List PREvaluation)
  | setLegacySummaryOp (now : Nat) (d : AnalysisSummary)
  | setLegacyClustersOp (d : List PRCluster)
  | setLegacyRankingOp (d : JsonDoc)
  | setLegacyAgentTraceOp (d : List AgentTraceStep)
  | appendLegacyEvaluationOp (ev : PREvaluation)
deriving Repr, DecidableEq

/-- State effect of each operation (results are projected away). -/
def applyOp : StoreOp → Store → Store
  | .ensureRunOp now id, s => ensureRun now id s
  | .setEvaluationsOp now id d, s => setEvaluations now id d s
  | .appendEvaluationOp now id ev, s => appendEvaluation now id ev s
  | .setSummaryOp now id d, s => setSummary now id d s
  | .setClustersOp now id d, s => setClusters now id d s
  | .setRankingOp now id d, s => setRanking now id d s
  | .setAgentTraceOp now id d, s => setAgentTrace now id d s
  | .setRunMetaOp now id p, s => setRunMeta now id p s
  | .appendRunEventOp now id ev, s => appendRunEvent now id ev s
  | .getRunIdsOp now, s => (getRunIds now s).2
  | .getCurrentRunIdOp now, s => (getCurrentRunId now s).2
  | .getOrCreateCurrentRunIdOp now, s => (getOrCreateCurrentRunId now s).2
  | .clearCurrentRunIdOp, s => clearCurrentRunId s
  | .setLegacyEvaluationsOp d, s => setLegacyEvaluations d s
  | .setLegacySummaryOp now d, s => setLegacySummary now d s
  | .setLegacyClustersOp d, s => setLegacyClusters d s
  | .setLegacyRankingOp d, s => setLegacyRanking d s
  | .setLegacyAgentTraceOp d, s => setLegacyAgentTrace d s
  | .appendLegacyEvaluationOp ev, s => appendLegacyEvaluation ev s

/-- Migration preserves at-most-once and exactly-once registration. -/
theorem count_migration (now : Nat) (id : String) (s : Store) :
    ((registryOf s).count id ≤ 1 →
      (registryOf (ensureLegacyRunMigration now s)).count id ≤ 1) ∧
    ((registryOf s).count id = 1 →
      (registryOf (ensureLegacyRunMigration now s)).count id = 1) := by
  rcases migration_eq now s with h | ⟨hempty, _, h⟩
  · rw [h]
    exact ⟨fun h1 => h1, fun h1 => h1⟩
  · rw [h]
    constructor
    · intro _
      by_cases hid : LEGACY_RUN_ID = id <;> simp [registryOf, List.count_cons, hid]
    · intro h1
      rw [hempty] at h1
      simp at h1

/-- The registry after `ensureRun`. -/
theorem registry_ensureRun (now : Nat) (rid : String) (s : Store) :
    registryOf (ensureRun now rid s) =
      (if rid ∈ registryOf (ensureLegacyRunMigration now s)
       then registryOf (ensureLegacyRunMigration now s)
       else registryOf (ensureLegacyRunMigration now s) ++ [rid]) := by
  unfold ensureRun getRunIds
  try dsimp only
  simp only [registryOf]
  by_cases hmem : rid ∈ (ensureLegacyRunMigration now s).runs.getD []
  · rw [if_pos hmem, if_pos hmem]
    split <;> simp
  · rw [if_neg hmem, if_neg hmem]
    split <;> simp

/-- The registry after the self-healing pointer read: either untouched
or exactly the post-migration registry. -/
theorem registry_getCurrentRunId (now : Nat) (s : Store) :
    registryOf (getCurrentRunId now s).2 = registryOf s ∨
    registryOf (getCurrentRunId now s).2 =
      registryOf (ensureLegacyRunMigration now s) := by
  cases hcur : s.currentRunId with
  | none => left; simp [getCurrentRunId, hcur]
  | some rid =>
    by_cases hblank : rid = ""
    · left; simp [getCurrentRunId, hcur, hblank]
    · right
      simp only [getCurrentRunId, hcur]
      try dsimp only
      rw [if_neg hblank]
      by_cases hmem : rid ∈ (getRunIds now s).1
      · rw [if_pos hmem]
        simp [getRunIds, registryOf]
      · rw [if_neg hmem]
        simp [getRunIds, clearCurrentRunId, registryOf]

/-- `ensureRun` preserves at-most-once registration of every id. -/
theorem count_ensureRun_le (now : Nat) (rid id : String) (s : Store)
    (h : (registryOf s).count id ≤ 1) :
    (registryOf (ensureRun now rid s)).count id ≤ 1 := by
  have hm := (count_migration now id s).1 h
  rw [registry_ensureRun]
  by_cases hmem : rid ∈ registryOf (ensureLegacyRunMigration now s)
  · rw [if_pos hmem]
    exact hm
  · rw [if_neg hmem]
    rw [List.count_append]
    by_cases hid : rid = id
    · subst hid
      have h0 : (registryOf (ensureLegacyRunMigration now s)).count rid = 0 :=
        List.count_eq_zero.mpr hmem
      simp [h0]
    · simp [List.count_singleton, hid]
      omega

/-- `ensureRun` preserves exactly-once registration of every id. -/
theorem count_ensureRun_eq (now : Nat) (rid id : String) (s : Store)
    (h : (registryOf s).count id = 1) :
    (registryOf (ensureRun now rid s)).count id = 1 := by
  have hm := (count_migration now id s).2 h
  rw [registry_ensureRun]
  by_cases hmem : rid ∈ registryOf (ensureLegacyRunMigration now s)
  · rw [if_pos hmem]
    exact hm
  · rw [if_neg hmem]
    rw [List.count_append]
    by_cases hid : rid = id
    · subst hid
      exact absurd (List.count_pos_iff.mp (by omega)) hmem
    · simp [List.count_singleton, hid]
      omega

/-- `ensureRun id` establishes exactly-once registration of `id`. -/
theorem count_ensureRun_self (now : Nat) (id : String) (s : Store)
    (h : (registryOf s).count id ≤ 1) :
    (registryOf (ensureRun now id s)).count id = 1 := by
  have hm := (count_migration now id s).1 h
  rw [registry_ensureRun]
  by_cases hmem : id ∈ registryOf (ensureLegacyRunMigration now s)
  · rw [if_pos hmem]
    have := List.count_pos_iff.mpr hmem
    omega
  · rw [if_neg hmem]
    rw [List.count_append]
    have h0 : (registryOf (ensureLegacyRunMigration now s)).count id = 0 :=
      List.count_eq_zero.mpr hmem
    simp [h0]

/-- No operation of `StoreOp` breaks at-most-once registration. -/
theorem count_le_one_applyOp (o : StoreOp) (id : String) (s : Store)
    (h : (registryOf s).count id ≤ 1) :
    (registryOf (applyOp o s)).count id ≤ 1 := by
  cases o with
  | ensureRunOp now rid => exact count_ensureRun_le now rid id s h
  | setEvaluationsOp now rid d => exact count_ensureRun_le now rid id s h
  | appendEvaluationOp now rid ev =>
    show (registryOf (appendEvaluation now rid ev s)).count id ≤ 1
    unfold appendEvaluation
    try dsimp only
    split <;> exact count_ensureRun_le now rid id s h
  | setSummaryOp now rid d => exact count_ensureRun_le now rid id s h
  | setClustersOp now rid d => exact count_ensureRun_le now rid id s h
  | setRankingOp now rid d => exact count_ensureRun_le now rid id s h
  | setAgentTraceOp now rid d => exact count_ensureRun_le now rid id s h
  | setRunMetaOp now rid p => exact count_ensureRun_le now rid id s h
  | appendRunEventOp now rid ev =>
    show (registryOf (appendRunEvent now rid ev s)).count id ≤ 1
    unfold appendRunEvent
    try dsimp only
    split
    · exact count_ensureRun_le now rid id s h
    · split
      · exact count_ensureRun_le now rid id s h
      · exact h
  | getRunIdsOp now => exact (count_migration now id s).1 h
  | getCurrentRunIdOp now =>
    show (registryOf (getCurrentRunId now s).2).count id ≤ 1
    rcases registry_getCurrentRunId now s with hreg | hreg
    · rw [hreg]; exact h
    · rw [hreg]; exact (count_migration now id s).1 h
  | getOrCreateCurrentRunIdOp now =>
    show (registryOf (getOrCreateCurrentRunId now s).2).count id ≤ 1
    have hcur : (registryOf (getCurrentRunId now s).2).count id ≤ 1 := by
      rcases registry_getCurrentRunId now s with hreg | hreg
      · rw [hreg]; exact h
      · rw [hreg]; exact (count_migration now id s).1 h
    unfold getOrCreateCurrentRunId
    cases hg : getCurrentRunId now s with
    | mk fst snd =>
      rw [hg] at hcur
      cases fst with
      | some rid => exact hcur
      | none =>
        show (registryOf { ensureRun now (createRunId now) snd with
          currentRunId := some (createRunId now) }).count id ≤ 1
        have : registryOf { ensureRun now (createRunId now) snd with
            currentRunId := some (createRunId now) } =
            registryOf (ensureRun now (createRunId now) snd) := rfl
        rw [this]
        exact count_ensureRun_le now (createRunId now) id snd hcur
  | clearCurrentRunIdOp => exact h
  | setLegacyEvaluationsOp d => exact h
  | setLegacySummaryOp now d => exact h
  | setLegacyClustersOp d => exact h
  | setLegacyRankingOp d => exact h
  | setLegacyAgentTraceOp d => exact h
  | appendLegacyEvaluationOp ev =>
    show (registryOf (appendLegacyEvaluation ev s)).count id ≤ 1
    unfold appendLegacyEvaluation
    try dsimp only
    split <;> exact h

/-- No operation of `StoreOp` removes a registered id. -/
theorem count_eq_one_applyOp (o : StoreOp) (id : String) (s : Store)
    (h : (registryOf s).count id = 1) :
    (registryOf (applyOp o s)).count id = 1 := by
  cases o with
  | ensureRunOp now rid => exact count_ensureRun_eq now rid id s h
  | setEvaluationsOp now rid d => exact count_ensureRun_eq now rid id s h
  | appendEvaluationOp now rid ev =>
    show (registryOf (appendEvaluation now rid ev s)).count id = 1
    unfold appendEvaluation
    try dsimp only
    split <;> exact count_ensureRun_eq now rid id s h
  | setSummaryOp now rid d => exact count_ensureRun_eq now rid id s h
  | setClustersOp now rid d => exact count_ensureRun_eq now rid id s h
  | setRankingOp now rid d => exact count_ensureRun_eq now rid id s h
  | setAgentTraceOp now rid d => exact count_ensureRun_eq now rid id s h
  | setRunMetaOp now rid p => exact count_ensureRun_eq now rid id s h
  | appendRunEventOp now rid ev =>
    show (registryOf (appendRunEvent now rid ev s)).count id = 1
    unfold appendRunEvent
    try dsimp only
    split
    · exact count_ensureRun_eq now rid id s h
    · split
      · exact count_ensureRun_eq now rid id s h
      · exact h
  | getRunIdsOp now => exact (count_migration now id s).2 h
  | getCurrentRunIdOp now =>
    show (registryOf (getCurrentRunId now s).2).count id = 1
    rcases registry_getCurrentRunId now s with hreg | hreg
    · rw [hreg]; exact h
    · rw [hreg]; exact (count_migration now id s).2 h
  | getOrCreateCurrentRunIdOp now =>
    show (registryOf (getOrCreateCurrentRunId now s).2).count id = 1
    have hcur : (registryOf (getCurrentRunId now s).2).count id = 1 := by
      rcases registry_getCurrentRunId now s with hreg | hreg
      · rw [hreg]; exact h
      · rw [hreg]; exact (count_migration now id s).2 h
    unfold getOrCreateCurrentRunId
    cases hg : getCurrentRunId now s with
    | mk fst snd =>
      rw [hg] at hcur
      cases fst with
      | some rid => exact hcur
      | none =>
        show (registryOf { ensureRun now (createRunId now) snd with
          currentRunId := some (createRunId now) }).count id = 1
        have : registryOf { ensureRun now (createRunId now) snd with
            currentRunId := some (createRunId now) } =
            registryOf (ensureRun now (createRunId now) snd) := rfl
        rw [this]
        exact count_ensureRun_eq now (createRunId now) id snd hcur
  | clearCurrentRunIdOp => exact h
  | setLegacyEvaluationsOp d => exact h
  | setLegacySummaryOp now d => exact h
  | setLegacyClustersOp d => exact h
  | setLegacyRankingOp d => exact h
  | setLegacyAgentTraceOp d => exact h
  | appendLegacyEvaluationOp ev =>
    show (registryOf (appendLegacyEvaluation ev s)).count id = 1
    unfold appendLegacyEvaluation
    try dsimp only
    split <;> exact h

/-- C9: from a state where `id` is registered at most once, after any
finite sequence of non-deleting store operations containing at least
one `ensureRun(id)` call (or starting with `id` already registered
once), the registry contains `id` exactly once — however many times
`ensureRun(id)` was called. -/
theorem ensureRun_registry_once (id : String) (ops : List StoreOp) (s : Store)
    (h0 : (registryOf s).count id ≤ 1)
    (h1 : (∃ now, StoreOp.ensureRunOp now id ∈ ops) ∨ (registryOf s).count id = 1) :
    (registryOf (ops.foldl (fun st o => applyOp o st) s)).count id = 1 := by
  induction ops generalizing s with
  | nil =>
    rcases h1 with ⟨now, hmem⟩ | hone
    · simp at hmem
    · exact hone
  | cons o t ih =>
    simp only [List.foldl_cons]
    refine ih (applyOp o s) (count_le_one_applyOp o id s h0) ?_
    rcases h1 with ⟨n, hmem⟩ | hone
    · rcases List.mem_cons.mp hmem with heq | htail
      · right
        rw [← heq]
        exact count_ensureRun_self n id s h0
      · exact Or.inl ⟨n, htail⟩
    · exact Or.inr (count_eq_one_applyOp o id s hone)

/-- Witness for C9: three `ensureRun` calls for `"r"` interleaved with
a collection write leave `"r"` registered exactly once. -/
theorem ensureRun_registry_once_witness :
    (registryOf
      ([StoreOp.ensureRunOp 5 "r", StoreOp.ensureRunOp 6 "r",
        StoreOp.setEvaluationsOp 7 "r" [], StoreOp.ensureRunOp 8 "r",
        StoreOp.getRunIdsOp 9].foldl (fun st o => applyOp o st) egEmpty)).count "r" = 1 :=
  ensureRun_registry_once "r"
    [StoreOp.ensureRunOp 5 "r", StoreOp.ensureRunOp 6 "r",
      StoreOp.setEvaluationsOp 7 "r" [], StoreOp.ensureRunOp 8 "r",
      StoreOp.getRunIdsOp 9] egEmpty (by decide) (Or.inl ⟨5, by decide⟩)

/-! ## C8 — comparator symmetry -/

/-- The transformation the claim asserts between matching rows of
`compare(A,B)` and `compare(B,A)`: delta negated, the score, rank and
justification columns swapped, everything else (in particular the
title) kept.  (Claim-shaped definition.) -/
def flipRowClaim (r : RunComparisonRow) : RunComparisonRow :=
  { r with
    run_a_score := r.run_b_score, run_b_score := r.run_a_score,
    delta := r.delta.map (fun d => -d),
    rank_a := r.rank_b, rank_b := r.rank_a,
    justification_a := r.justification_b, justification_b := r.justification_a }

/-- The transformation that actually holds: as `flipRowClaim`, except
that the title is the one independently recomputed on the flipped side
(each direction prefers its own first run's title). -/
def flipRowWith (t : String) (r : RunComparisonRow) : RunComparisonRow :=
  { pr_number := r.pr_number, title := t,
    run_a_score := r.run_b_score, run_b_score := r.run_a_score,
    delta := r.delta.map (fun d => -d),
    rank_a := r.rank_b, rank_b := r.rank_a,
    justification_a := r.justification_b, justification_b := r.justification_a }

theorem mem_dedupFirstAux (l : List Nat) :
    ∀ (seen : List Nat) (x : Nat),
      x ∈ dedupFirstAux seen l ↔ x ∈ l ∧ x ∉ seen := by
  induction l with
  | nil => intro seen x; simp [dedupFirstAux]
  | cons a t ih =>
    intro seen x
    rw [dedupFirstAux]
    by_cases ha : a ∈ seen
    · rw [if_pos ha, ih]
      constructor
      · rintro ⟨h1, h2⟩
        exact ⟨List.mem_cons_of_mem a h1, h2⟩
      · rintro ⟨h1, h2⟩
        rcases List.mem_cons.mp h1 with rfl | h1
        · exact absurd ha h2
        · exact ⟨h1, h2⟩
    · rw [if_neg ha]
      constructor
      · intro hx
        rcases List.mem_cons.mp hx with rfl | hx
        · exact ⟨List.mem_cons_self x t, ha⟩
        · rcases (ih (a :: seen) x).mp hx with ⟨h1, h2⟩
          refine ⟨List.mem_cons_of_mem a h1, ?_⟩
          intro hseen
          exact h2 (List.mem_cons_of_mem a hseen)
      · rintro ⟨h1, h2⟩
        rcases List.mem_cons.mp h1 with rfl | h1
        · exact List.mem_cons_self x _
        · by_cases hxa : x = a
          · subst hxa
            exact List.mem_cons_self x _
          · refine List.mem_cons_of_mem a ((ih (a :: seen) x).mpr ⟨h1, ?_⟩)
            intro hx
            rcases List.mem_cons.mp hx with h | h
            · exact hxa h
            · exact h2 h

theorem mem_dedupFirst (l : List Nat) (x : Nat) : x ∈ dedupFirst l ↔ x ∈ l := by
  simp [dedupFirst, mem_dedupFirstAux]

/-- Membership in the key union is symmetric. -/
theorem mem_comparisonKeys (A B : List PREvaluation) (pr : Nat) :
    pr ∈ comparisonKeys A B ↔
      pr ∈ A.map (fun e => e.pr_number) ∨ pr ∈ B.map (fun e => e.pr_number) := by
  simp [comparisonKeys, mem_dedupFirst]

theorem comparisonRow_pr (A B : List PREvaluation) (pr : Nat) :
    (comparisonRow A B pr).pr_number = pr := rfl

/-- A row is in the output exactly when it is the constructed row of
one of the union keys. -/
theorem mem_comparisonRows (A B : List PREvaluation) (r : RunComparisonRow) :
    r ∈ comparisonRows A B ↔ ∃ pr ∈ comparisonKeys A B, r = comparisonRow A B pr := by
  rw [comparisonRows, (sortByKeyDesc_perm deltaKey _).mem_iff]
  simp [eq_comm]

/-- `jsToFixed4` is an odd function (ECMAScript `toFixed` extracts the
sign before rounding). -/
theorem jsToFixed4_neg (z : ℚ) : jsToFixed4 (-z) = -jsToFixed4 z := by
  rcases lt_trichotomy z 0 with hz | hz | hz
  · have h1 : (0 : ℚ) ≤ -z := by linarith
    have h2 : ¬ (0 : ℚ) ≤ z := not_le.mpr hz
    rw [jsToFixed4, if_pos h1, jsToFixed4, if_neg h2, neg_neg]
  · subst hz
    rw [neg_zero]
    have h0 : jsToFixed4 (0 : ℚ) = 0 := by decide
    rw [h0, neg_zero]
  · have h1 : ¬ (0 : ℚ) ≤ -z := by
      rw [not_le]
      linarith
    have h2 : (0 : ℚ) ≤ z := le_of_lt hz
    rw [jsToFixed4, if_neg h1, jsToFixed4, if_pos h2, neg_neg]

theorem qSub_antisymm (x y : ℚ) : qSub x y = -qSub y x := by
  rw [qSub_eq, qSub_eq, neg_sub]

/-- The row of `compare(B,A)` for a key is the claim's flip of the
`compare(A,B)` row, except for the independently chosen title. -/
theorem comparisonRow_flip (A B : List PREvaluation) (pr : Nat) :
    comparisonRow B A pr = flipRowWith (comparisonRow B A pr).title (comparisonRow A B pr) := by
  cases ha : mapLookup (A.map (fun e => (e.pr_number, e))) pr with
  | none =>
    cases hb : mapLookup (B.map (fun e => (e.pr_number, e))) pr with
    | none => simp [comparisonRow, flipRowWith, ha, hb]
    | some eb => simp [comparisonRow, flipRowWith, ha, hb]
  | some ea =>
    cases hb : mapLookup (B.map (fun e => (e.pr_number, e))) pr with
    | none => simp [comparisonRow, flipRowWith, ha, hb]
    | some eb =>
      have hd : jsToFixed4 (qSub (comparisonScore ea) (comparisonScore eb)) =
          -(jsToFixed4 (qSub (comparisonScore eb) (comparisonScore ea))) := by
        rw [qSub_antisymm (comparisonScore ea) (comparisonScore eb), jsToFixed4_neg]
      simp [comparisonRow, flipRowWith, ha, hb, hd]

/-- Every key of one direction has a row, in both directions. -/
theorem rows_pr_mem (A B : List PREvaluation) (pr : Nat) :
    (∃ r ∈ comparisonRows A B, r.pr_number = pr) ↔ pr ∈ comparisonKeys A B := by
  constructor
  · rintro ⟨r, hr, hpr⟩
    obtain ⟨pk, hk, hre⟩ := (mem_comparisonRows A B r).mp hr
    rw [hre, comparisonRow_pr] at hpr
    rw [← hpr]
    exact hk
  · intro hk
    exact ⟨comparisonRow A B pr,
      (mem_comparisonRows A B _).mpr ⟨pr, hk, rfl⟩, comparisonRow_pr A B pr⟩

/-- C8 counterexample: when both runs contain the same PR under
different titles, `compare(B,A)` is NOT the image of `compare(A,B)`
under the claim's transformation (which keeps the title): here the only
`compare(B,A)` row has title `"t1b"` while the transformed
`compare(A,B)` row keeps `"t1"` (and the one-sided rows differ in title
preference as well). -/
theorem getRunComparison_symm_counterexample :
    ¬ (∀ r2 ∈ (getRunComparison "B" "A" exC2state).rows,
        ∃ r ∈ (getRunComparison "A" "B" exC2state).rows, r2 = flipRowClaim r) := by
  decide

/-- C8 amended: `compare(A,B)` and `compare(B,A)` agree up to the
claim's per-row transformation in every column except the title (delta
negated; score, rank and justification columns swapped; per-run
scored-item counts and average scores exchanged; the same key set on
both sides); the title column instead follows each direction's own
first-run preference. -/
theorem getRunComparison_symm (s : Store) (runA runB : String) :
    ((getRunComparison runA runB s).run_a.scored_count =
      (getRunComparison runB runA s).run_b.scored_count) ∧
    ((getRunComparison runA runB s).run_a.avg_score =
      (getRunComparison runB runA s).run_b.avg_score) ∧
    ((getRunComparison runA runB s).run_b.scored_count =
      (getRunComparison runB runA s).run_a.scored_count) ∧
    ((getRunComparison runA runB s).run_b.avg_score =
      (getRunComparison runB runA s).run_a.avg_score) ∧
    (∀ pr : Nat,
      (∃ r ∈ (getRunComparison runA runB s).rows, r.pr_number = pr) ↔
      (∃ r2 ∈ (getRunComparison runB runA s).rows, r2.pr_number = pr)) ∧
    (∀ r ∈ (getRunComparison runA runB s).rows,
      ∀ r2 ∈ (getRunComparison runB runA s).rows,
        r.pr_number = r2.pr_number → r2 = flipRowWith r2.title r) := by
  refine ⟨rfl, rfl, rfl, rfl, ?_, ?_⟩
  · intro pr
    have hAB : (getRunComparison runA runB s).rows =
        comparisonRows (getEvaluations (some runA) s) (getEvaluations (some runB) s) := rfl
    have hBA : (getRunComparison runB runA s).rows =
        comparisonRows (getEvaluations (some runB) s) (getEvaluations (some runA) s) := rfl
    rw [hAB, hBA, rows_pr_mem, rows_pr_mem, mem_comparisonKeys, mem_comparisonKeys]
    exact or_comm
  · intro r hr r2 hr2 hpr
    obtain ⟨p1, hk1, he1⟩ :=
      (mem_comparisonRows (getEvaluations (some runA) s) (getEvaluations (some runB) s) r).mp hr
    obtain ⟨p2, hk2, he2⟩ :=
      (mem_comparisonRows (getEvaluations (some runB) s) (getEvaluations (some runA) s) r2).mp hr2
    have hp : p1 = p2 := by
      rw [he1, he2] at hpr
      rw [comparisonRow_pr, comparisonRow_pr] at hpr
      exact hpr
    subst hp
    rw [he1, he2]
    exact comparisonRow_flip (getEvaluations (some runA) s) (getEvaluations (some runB) s) p1

/-- Witness for C8 (amended) at the two-run state: the `compare(B,A)`
row for PR 1 is the titled flip of the `compare(A,B)` row. -/
theorem getRunComparison_symm_witness :
    let rAB : RunComparisonRow :=
      { pr_number := 1, title := "t1", run_a_score := some 5, run_b_score := some 7,
        delta := some 2, rank_a := some 1, rank_b := some 1,
        justification_a := "", justification_b := "" }
    let rBA : RunComparisonRow :=
      { pr_number := 1, title := "t1b", run_a_score := some 7, run_b_score := some 5,
        delta := some (-2), rank_a := some 1, rank_b := some 1,
        justification_a := "", justification_b := "" }
    rBA = flipRowWith rBA.title rAB :=
  (getRunComparison_symm exC2state "A" "B").2.2.2.2.2 _ (by decide) _ (by decide) (by decide)

/-! ## C4 — retention / cleanup -/

/-- Well-formed store: the registry is duplicate-free, no registered id
is blank or the `"latest"` sentinel string, and a stored metadata
record's `id` field matches its key (all of which hold for every state
reachable through the store's API). -/
def WF (s : Store) : Prop :=
  (registryOf s).Nodup ∧
  ∀ id ∈ registryOf s,
    id ≠ "" ∧ id ≠ "latest" ∧ ((s.meta id).all (fun m => m.id == id)) = true

/-- Migration preserves well-formedness. -/
theorem WF_migration (now : Nat) (s : Store) (h : WF s) :
    WF (ensureLegacyRunMigration now s) := by
  rcases migration_eq now s with heq | ⟨hemp, _, heq⟩
  · rw [heq]; exact h
  · rw [heq]
    constructor
    · simp [registryOf]
    · intro id hid
      simp only [registryOf] at hid
      simp only [Option.getD, List.mem_singleton] at hid
      subst hid
      refine ⟨by decide, by decide, ?_⟩
      simp [setF, LEGACY_RUN_ID]

/-- The reduce winner is one of the candidates. -/
theorem reduceBest_mem (l : List (String × Int)) :
    ∀ a : String × Int, reduceBest l a ∈ a :: l := by
  induction l with
  | nil => intro a; simp [reduceBest]
  | cons c t ih =>
    intro a
    have hred : reduceBest (c :: t) a = reduceBest t (if c.2 > a.2 then c else a) := rfl
    rw [hred]
    by_cases h : c.2 > a.2
    · rw [if_pos h]
      rcases List.mem_cons.mp (ih c) with he | ht
      · rw [he]
        exact List.mem_cons_of_mem a (List.mem_cons_self c t)
      · exact List.mem_cons_of_mem a (List.mem_cons_of_mem c ht)
    · rw [if_neg h]
      rcases List.mem_cons.mp (ih a) with he | ht
      · rw [he]
        exact List.mem_cons_self a (c :: t)
      · exact List.mem_cons_of_mem a (List.mem_cons_of_mem c ht)

/-- Every candidate's count is bounded by the running maximum. -/
theorem le_sndMax_mem (l : List (String × Int)) :
    ∀ (a : String × Int), ∀ c ∈ a :: l, c.2 ≤ sndMax a l := by
  induction l with
  | nil =>
    intro a c hc
    rcases List.mem_cons.mp hc with rfl | h
    · exact le_sndMax_init _ _
    · simp at h
  | cons b t ih =>
    intro a c hc
    have hstep : sndMax a (b :: t) = sndMax (if b.2 > a.2 then b else a) t := by
      by_cases h : b.2 > a.2
      · simp [sndMax, h, max_eq_right (le_of_lt h)]
      · simp [sndMax, h, max_eq_left (not_lt.mp h)]
    rw [hstep]
    set st := if b.2 > a.2 then b else a with hst
    have hle_a : a.2 ≤ st.2 := by
      rw [hst]
      by_cases h : b.2 > a.2
      · rw [if_pos h]; exact le_of_lt h
      · rw [if_neg h]
    have hle_b : b.2 ≤ st.2 := by
      rw [hst]
      by_cases h : b.2 > a.2
      · rw [if_pos h]
      · rw [if_neg h]; exact not_lt.mp h
    rcases List.mem_cons.mp hc with rfl | hc
    · exact le_trans hle_a (le_sndMax_init st t)
    · rcases List.mem_cons.mp hc with rfl | hc
      · exact le_trans hle_b (le_sndMax_init st t)
      · exact ih st c (List.mem_cons_of_mem st hc)

/-- The reduce keeps its seed when no candidate strictly beats it. -/
theorem reduceBest_const (l : List (String × Int)) :
    ∀ (a : String × Int), (∀ c ∈ l, c.2 ≤ a.2) → reduceBest l a = a := by
  induction l with
  | nil => intro a _; rfl
  | cons c t ih =>
    intro a h
    have hc : c.2 ≤ a.2 := h c (List.mem_cons_self c t)
    have hred : reduceBest (c :: t) a = reduceBest t (if c.2 > a.2 then c else a) := rfl
    rw [hred, if_neg (not_lt.mpr hc)]
    exact ih a (fun x hx => h x (List.mem_cons_of_mem c hx))

/-- Unfolding equations for the insertion sort. -/
theorem insertByKeyDesc_cons [LinearOrder β] (key : α → β) (a b : α) (l : List α) :
    insertByKeyDesc key a (b :: l) =
      (if key b > key a then b :: insertByKeyDesc key a l else a :: b :: l) := rfl

/-- Filtering commutes with ordered insertion into a descending list. -/
theorem filter_insertByKeyDesc [LinearOrder β] (key : α → β) (p : α → Bool) (a : α) :
    ∀ (m : List α), m.Pairwise (fun x y => key y ≤ key x) →
      (insertByKeyDesc key a m).filter p =
        (if p a then insertByKeyDesc key a (m.filter p) else m.filter p) := by
  intro m
  induction m with
  | nil =>
    intro _
    cases hpa : p a <;> simp [insertByKeyDesc, List.filter_cons, hpa]
  | cons b t ih =>
    intro hsort
    rcases List.pairwise_cons.mp hsort with ⟨hbt, ht⟩
    rw [insertByKeyDesc_cons]
    by_cases hba : key b > key a
    · rw [if_pos hba, List.filter_cons]
      by_cases hpb : p b = true
      · rw [if_pos hpb, ih ht, List.filter_cons, if_pos hpb]
        by_cases hpa : p a = true
        · rw [if_pos hpa, if_pos hpa, insertByKeyDesc_cons, if_pos hba]
        · rw [if_neg hpa, if_neg hpa]
      · rw [if_neg hpb, ih ht, List.filter_cons, if_neg hpb]
    · rw [if_neg hba, List.filter_cons]
      by_cases hpa : p a = true
      · rw [if_pos hpa, if_pos hpa, List.filter_cons]
        by_cases hpb : p b = true
        · rw [if_pos hpb, insertByKeyDesc_cons, if_neg hba]
        · rw [if_neg hpb]
          cases hf : t.filter p with
          | nil => rfl
          | cons x xs =>
            have hxmem : x ∈ t.filter p := by
              rw [hf]
              exact List.mem_cons_self x xs
            have hxt : x ∈ t := List.mem_of_mem_filter hxmem
            have hxa : ¬ key x > key a :=
              not_lt.mpr (le_trans (hbt x hxt) (not_lt.mp hba))
            rw [insertByKeyDesc_cons, if_neg hxa]
      · rw [if_neg hpa, if_neg hpa, List.filter_cons]

/-- Filtering commutes with the stable sort. -/
theorem filter_sortByKeyDesc [LinearOrder β] (key : α → β) (p : α → Bool) :
    ∀ (l : List α), (sortByKeyDesc key l).filter p = sortByKeyDesc key (l.filter p) := by
  intro l
  induction l with
  | nil => rfl
  | cons a t ih =>
    show (insertByKeyDesc key a (sortByKeyDesc key t)).filter p =
      sortByKeyDesc key ((a :: t).filter p)
    rw [List.filter_cons,
      filter_insertByKeyDesc key p a (sortByKeyDesc key t) (sortByKeyDesc_pairwise key t)]
    by_cases hpa : p a = true
    · rw [if_pos hpa, if_pos hpa, ih]
      rfl
    · rw [if_neg hpa, if_neg hpa, ih]

/-- Mapping an id-preserving function commutes with filtering on
ids. -/
theorem map_filter_ids (g : String → RunMeta) (p : String → Bool) :
    ∀ (l : List String), (∀ x ∈ l, (g x).id = x) →
      (l.filter p).map g = (l.map g).filter (fun m => p m.id) := by
  intro l
  induction l with
  | nil => intro _; rfl
  | cons a t ih =>
    intro hg
    rw [List.filter_cons, List.map_cons, List.filter_cons]
    have hga : (g a).id = a := hg a (List.mem_cons_self a t)
    rw [hga]
    have ht := ih (fun x hx => hg x (List.mem_cons_of_mem a hx))
    by_cases hpa : p a = true
    · rw [if_pos hpa, if_pos hpa, List.map_cons, ht]
    · rw [if_neg hpa, if_neg hpa, ht]

/-- `deleteRun` on a registered id of a non-empty registry. -/
theorem deleteRun_eq_mem (now : Nat) (d : String) (s : Store)
    (hne : registryOf s ≠ []) (hmem : d ∈ registryOf s) :
    deleteRun now d s =
      { (if d = LEGACY_RUN_ID then
          { s with
            legacySummary := none, legacyEvaluations := none,
            legacyClusters := none, legacyRanking := none, legacyTrace := none }
        else
          { s with
            meta := setF s.meta d none, promptBundle := setF s.promptBundle d none,
            summary := setF s.summary d none, evaluations := setF s.evaluations d none,
            clusters := setF s.clusters d none, ranking := setF s.ranking d none,
            trace := setF s.trace d none }) with
        runs := some ((registryOf s).filter (fun id => id ≠ d)) } := by
  unfold deleteRun
  rw [getRunIds_of_nonempty now s hne]
  try dsimp only
  rw [if_neg (not_not_intro hmem)]

/-- Invariant carried through the deletion loop of `cleanupRuns`:
`acc.1` is the set of runs deleted so far (all registered, none
protected), the registry equals the original minus those, every
untouched key family is preserved, deleted runs' keys are cleared (the
legacy sentinel loses its five legacy keys but keeps its namespaced
meta record), and the pointer key is untouched. -/
def LoopInv (s1 : Store) (keep : List String) (acc : List String × Store) : Prop :=
  registryOf acc.2 = (registryOf s1).filter (fun id => id ∉ acc.1) ∧
  (∀ id, id ∉ acc.1 →
    acc.2.meta id = s1.meta id ∧ acc.2.evaluations id = s1.evaluations id ∧
    acc.2.summary id = s1.summary id ∧ acc.2.clusters id = s1.clusters id ∧
    acc.2.ranking id = s1.ranking id ∧ acc.2.trace id = s1.trace id ∧
    acc.2.promptBundle id = s1.promptBundle id) ∧
  (LEGACY_RUN_ID ∉ acc.1 →
    acc.2.legacySummary = s1.legacySummary ∧
    acc.2.legacyEvaluations = s1.legacyEvaluations ∧
    acc.2.legacyClusters = s1.legacyClusters ∧
    acc.2.legacyRanking = s1.legacyRanking ∧
    acc.2.legacyTrace = s1.legacyTrace) ∧
  acc.2.currentRunId = s1.currentRunId ∧
  (∀ id ∈ acc.1, id ∉ keep ∧ id ∈ registryOf s1) ∧
  (∀ id ∈ acc.1, id ≠ LEGACY_RUN_ID →
    acc.2.meta id = none ∧ acc.2.evaluations id = none ∧ acc.2.summary id = none ∧
    acc.2.clusters id = none ∧ acc.2.ranking id = none ∧ acc.2.trace id = none ∧
    acc.2.promptBundle id = none) ∧
  (LEGACY_RUN_ID ∈ acc.1 →
    acc.2.legacySummary = none ∧ acc.2.legacyEvaluations = none ∧
    acc.2.legacyClusters = none ∧ acc.2.legacyRanking = none ∧
    acc.2.legacyTrace = none) ∧
  acc.2.meta LEGACY_RUN_ID = s1.meta LEGACY_RUN_ID

/-- One deletion step preserves the loop invariant. -/
theorem LoopInv_step (now : Nat) (s1 : Store) (keep : List String) (run : RunMeta)
    (acc : List String × Store)
    (hkeep_ne : keep ≠ [])
    (hkeep_sub : ∀ k ∈ keep, k ∈ registryOf s1)
    (hinv : LoopInv s1 keep acc)
    (hmem : run.id ∈ registryOf s1)
    (hnot : run.id ∉ acc.1) :
    LoopInv s1 keep
      (if run.id ∈ keep then acc
       else (acc.1 ++ [run.id], deleteRun now run.id acc.2)) := by
  by_cases hk : run.id ∈ keep
  · rw [if_pos hk]
    exact hinv
  rw [if_neg hk]
  obtain ⟨hreg, hpres, hleg, hcur, hdel1, hdel2, hdel3, hmetaleg⟩ := hinv
  set d := run.id with hd
  -- some protected run survives, so the registry is non-empty
  obtain ⟨k0, hk0⟩ := List.exists_mem_of_ne_nil keep hkeep_ne
  have hk0notdel : k0 ∉ acc.1 := fun hc => (hdel1 k0 hc).1 hk0
  have hk0mem : k0 ∈ registryOf acc.2 := by
    rw [hreg]
    exact List.mem_filter.mpr ⟨hkeep_sub k0 hk0, by simpa using hk0notdel⟩
  have hne : registryOf acc.2 ≠ [] := List.ne_nil_of_mem hk0mem
  have hdmem : d ∈ registryOf acc.2 := by
    rw [hreg]
    exact List.mem_filter.mpr ⟨hmem, by simpa using hnot⟩
  rw [deleteRun_eq_mem now d acc.2 hne hdmem]
  have hregeq : (registryOf acc.2).filter (fun id => id ≠ d) =
      (registryOf s1).filter (fun id => id ∉ acc.1 ++ [d]) := by
    rw [hreg, List.filter_filter]
    apply List.filter_congr
    intro x _
    by_cases h1 : x ∈ acc.1 <;> by_cases h2 : x = d <;>
      simp [h1, h2, List.mem_append]
  by_cases hdleg : d = LEGACY_RUN_ID
  · rw [if_pos hdleg]
    refine ⟨?_, ?_, ?_, ?_, ?_, ?_, ?_, ?_⟩
    · simpa [registryOf] using hregeq
    · intro id hid
      have hid1 : id ∉ acc.1 := fun hc => hid (List.mem_append_left _ hc)
      exact hpres id hid1
    · intro hid
      exact absurd (List.mem_append_right acc.1 (by simp [hdleg])) hid
    · exact hcur
    · intro id hid
      rcases List.mem_append.mp hid with h | h
      · exact hdel1 id h
      · rw [List.mem_singleton.mp h]
        exact ⟨hk, hmem⟩
    · intro id hid hneq
      rcases List.mem_append.mp hid with h | h
      · exact hdel2 id h hneq
      · rw [List.mem_singleton.mp h] at hneq
        rw [hd] at hneq
        exact absurd hdleg hneq
    · intro _
      exact ⟨rfl, rfl, rfl, rfl, rfl⟩
    · exact hmetaleg
  · rw [if_neg hdleg]
    refine ⟨?_, ?_, ?_, ?_, ?_, ?_, ?_, ?_⟩
    · simpa [registryOf] using hregeq
    · intro id hid
      have hid1 : id ∉ acc.1 := fun hc => hid (List.mem_append_left _ hc)
      have hidd : id ≠ d := by
        intro hc
        exact hid (List.mem_append_right acc.1 (by simp [hc]))
      obtain ⟨h1, h2, h3, h4, h5, h6, h7⟩ := hpres id hid1
      exact ⟨by simpa [setF, hidd] using h1, by simpa [setF, hidd] using h2,
        by simpa [setF, hidd] using h3, by simpa [setF, hidd] using h4,
        by simpa [setF, hidd] using h5, by simpa [setF, hidd] using h6,
        by simpa [setF, hidd] using h7⟩
    · intro hid
      have : LEGACY_RUN_ID ∉ acc.1 := fun hc => hid (List.mem_append_left _ hc)
      exact hleg this
    · exact hcur
    · intro id hid
      rcases List.mem_append.mp hid with h | h
      · exact hdel1 id h
      · rw [List.mem_singleton.mp h]
        exact ⟨hk, hmem⟩
    · intro id hid hneq
      rcases List.mem_append.mp hid with h | h
      · obtain ⟨h1, h2, h3, h4, h5, h6, h7⟩ := hdel2 id h hneq
        by_cases hidd : id = d
        · subst hidd
          refine ⟨?_, ?_, ?_, ?_, ?_, ?_, ?_⟩ <;> simp [setF]
        · exact ⟨by simpa [setF, hidd] using h1, by simpa [setF, hidd] using h2,
            by simpa [setF, hidd] using h3, by simpa [setF, hidd] using h4,
            by simpa [setF, hidd] using h5, by simpa [setF, hidd] using h6,
            by simpa [setF, hidd] using h7⟩
      · rw [List.mem_singleton.mp h]
        refine ⟨?_, ?_, ?_, ?_, ?_, ?_, ?_⟩ <;> simp [setF]
    · intro hid
      rcases List.mem_append.mp hid with h | h
      · exact hdel3 h
      · rw [hd] at hdleg
        exact absurd (List.mem_singleton.mp h).symm hdleg
    · have : LEGACY_RUN_ID ≠ d := fun hc => hdleg hc.symm
      simpa [setF, this] using hmetaleg

/-- The whole deletion loop: invariant plus the deleted-id list. -/
theorem LoopInv_fold (now : Nat) (s1 : Store) (keep : List String)
    (hkeep_ne : keep ≠ []) (hkeep_sub : ∀ k ∈ keep, k ∈ registryOf s1) :
    ∀ (rs : List RunMeta) (acc : List String × Store),
      (∀ m ∈ rs, m.id ∈ registryOf s1) →
      (rs.map (fun m => m.id)).Nodup →
      (∀ m ∈ rs, m.id ∉ acc.1) →
      LoopInv s1 keep acc →
      LoopInv s1 keep
        (rs.foldl
          (fun a run =>
            if run.id ∈ keep then a else (a.1 ++ [run.id], deleteRun now run.id a.2))
          acc) ∧
      (rs.foldl
        (fun a run =>
          if run.id ∈ keep then a else (a.1 ++ [run.id], deleteRun now run.id a.2))
        acc).1 = acc.1 ++ (rs.filter (fun m => m.id ∉ keep)).map (fun m => m.id) := by
  intro rs
  induction rs with
  | nil =>
    intro acc _ _ _ hinv
    exact ⟨hinv, by simp⟩
  | cons run rest ih =>
    intro acc hmem hnodup hnot hinv
    rw [List.foldl_cons]
    have hstep := LoopInv_step now s1 keep run acc hkeep_ne hkeep_sub hinv
      (hmem run (List.mem_cons_self run rest)) (hnot run (List.mem_cons_self run rest))
    have hmem' : ∀ m ∈ rest, m.id ∈ registryOf s1 :=
      fun m hm => hmem m (List.mem_cons_of_mem run hm)
    have hnodup' : (rest.map (fun m => m.id)).Nodup := by
      rw [List.map_cons] at hnodup
      exact (List.nodup_cons.mp hnodup).2
    have hhead : run.id ∉ rest.map (fun m => m.id) := by
      rw [List.map_cons] at hnodup
      exact (List.nodup_cons.mp hnodup).1
    by_cases hk : run.id ∈ keep
    · rw [if_pos hk] at hstep ⊢
      have := ih acc hmem' hnodup'
        (fun m hm => hnot m (List.mem_cons_of_mem run hm)) hinv
      refine ⟨this.1, ?_⟩
      rw [this.2, List.filter_cons, if_neg (by simpa using hk)]
    · rw [if_neg hk] at hstep ⊢
      have hnot' : ∀ m ∈ rest, m.id ∉ acc.1 ++ [run.id] := by
        intro m hm hc
        rcases List.mem_append.mp hc with h | h
        · exact hnot m (List.mem_cons_of_mem run hm) h
        · exact hhead ((List.mem_singleton.mp h) ▸ List.mem_map_of_mem (fun m => m.id) hm)
      have := ih (acc.1 ++ [run.id], deleteRun now run.id acc.2) hmem' hnodup' hnot' hstep
      refine ⟨this.1, ?_⟩
      rw [this.2]
      rw [List.filter_cons, if_pos (by simpa using hk)]
      simp

/-! ## C4 — cleanup and retention -/

/-- The pure reverse-chronological listing that `getRuns` computes from
a (post-migration) state. -/
def runsListing (s : Store) : List RunMeta :=
  sortByKeyDesc (fun m => (m.timestamp : Int)) ((registryOf s).map (metaOrDefault s))

/-- `getRuns` is the listing of the migrated state. -/
theorem getRuns_eq (now : Nat) (s : Store) :
    getRuns now s =
      (runsListing (ensureLegacyRunMigration now s), ensureLegacyRunMigration now s) := rfl

/-- If migration leaves an empty registry, it was a no-op on a store
with no runs and no legacy data. -/
theorem migration_empty (now : Nat) (s : Store)
    (h : registryOf (ensureLegacyRunMigration now s) = []) :
    ensureLegacyRunMigration now s = s ∧ registryOf s = [] ∧ hasLegacyData s = false := by
  rcases migration_eq now s with heq | ⟨hemp, hdata, heq⟩
  · refine ⟨heq, by rw [heq] at h; exact h, ?_⟩
    by_cases hd : hasLegacyData s = true
    · have hemp2 : registryOf s = [] := by rw [heq] at h; exact h
      have hlen : ¬ (s.runs.getD []).length > 0 := by
        rw [show s.runs.getD [] = registryOf s from rfl, hemp2]
        simp
      have hfired : ensureLegacyRunMigration now s =
          { s with
            runs := some [LEGACY_RUN_ID],
            meta := setF s.meta LEGACY_RUN_ID
              (some { id := LEGACY_RUN_ID, timestamp := now }) } := by
        unfold ensureLegacyRunMigration
        simp [hlen, hd]
      rw [heq] at hfired
      have hr := congrArg Store.runs hfired
      simp at hr
      simp [registryOf, hr] at hemp2
    · simpa using hd
  · rw [heq] at h
    simp [registryOf] at h

/-- A stored record's `id` matches the registry key (well-formedness),
also through the listing fallback. -/
theorem metaOrDefault_id (s : Store) (hWF : WF s) :
    ∀ id ∈ registryOf s, (metaOrDefault s id).id = id := by
  intro id hid
  obtain ⟨h1, h2, h3⟩ := hWF.2 id hid
  unfold metaOrDefault
  cases hm : s.meta id with
  | none => rfl
  | some m =>
    rw [hm] at h3
    simpa using h3

/-- The listing's ids are a permutation of the registry. -/
theorem runsListing_ids (s : Store) (hWF : WF s) :
    ((runsListing s).map (fun m => m.id)).Perm (registryOf s) := by
  have hp := (sortByKeyDesc_perm (fun m : RunMeta => (m.timestamp : Int))
    ((registryOf s).map (metaOrDefault s))).map (fun m => m.id)
  rw [List.map_map] at hp
  have he : (registryOf s).map ((fun m : RunMeta => m.id) ∘ metaOrDefault s) = registryOf s := by
    have hc : ∀ id ∈ registryOf s, ((fun m : RunMeta => m.id) ∘ metaOrDefault s) id = id := by
      intro id hid
      exact metaOrDefault_id s hWF id hid
    rw [List.map_congr_left hc]
    simp
  rw [he] at hp
  exact hp

/-- Every listed run is registered. -/
theorem runsListing_mem_id (s : Store) (hWF : WF s) :
    ∀ m ∈ runsListing s, m.id ∈ registryOf s := by
  intro m hm
  exact (runsListing_ids s hWF).mem_iff.mp (List.mem_map_of_mem (fun m => m.id) hm)

/-- The listing carries no duplicate ids. -/
theorem runsListing_nodup (s : Store) (hWF : WF s) :
    ((runsListing s).map (fun m => m.id)).Nodup :=
  ((runsListing_ids s hWF).nodup_iff).mpr hWF.1

/-- Every registered id appears in the listing. -/
theorem registry_sub_runsListing (s : Store) (hWF : WF s) :
    ∀ id ∈ registryOf s, ∃ m ∈ runsListing s, m.id = id := by
  intro id hid
  have hmem : id ∈ (runsListing s).map (fun m => m.id) :=
    (runsListing_ids s hWF).mem_iff.mpr hid
  obtain ⟨m, hm, he⟩ := List.mem_map.mp hmem
  exact ⟨m, hm, he⟩

/-- A non-empty registry yields a non-empty listing. -/
theorem runsListing_ne_nil (s : Store) (hne : registryOf s ≠ []) :
    ∃ r0 rest, runsListing s = r0 :: rest := by
  cases hc : runsListing s with
  | nil =>
    exfalso
    have hp := sortByKeyDesc_perm (fun m : RunMeta => (m.timestamp : Int))
      ((registryOf s).map (metaOrDefault s))
    rw [show sortByKeyDesc (fun m : RunMeta => (m.timestamp : Int))
      ((registryOf s).map (metaOrDefault s)) = runsListing s from rfl, hc] at hp
    have hmap := List.perm_nil.mp hp.symm
    rw [List.map_eq_nil_iff] at hmap
    exact hne hmap
  | cons a l => exact ⟨a, l, rfl⟩

/-- The protected set never exceeds two ids. -/
theorem keepSet_length (l : String) (b : Option String) : (keepSet l b).length ≤ 2 := by
  unfold keepSet
  cases b with
  | none => by_cases hl : l = "" <;> simp [hl]
  | some x =>
    by_cases hl : l = "" <;> by_cases hx : x = "" <;> by_cases hxl : x = l <;>
      simp [hl, hx, hxl]

/-- A truthy reduce-winner id is protected. -/
theorem keepSet_mem_left (l : String) (b : Option String) (h : l ≠ "") :
    l ∈ keepSet l b := by
  unfold keepSet
  cases b with
  | none => simp [h]
  | some x =>
    by_cases hx : x = "" <;> by_cases hxl : x = l <;> simp [h, hx, hxl]

/-- A truthy selector id is protected. -/
theorem keepSet_mem_right (l x : String) (hx : x ≠ "") :
    x ∈ keepSet l (some x) := by
  unfold keepSet
  by_cases hm : x ∈ (if l = "" then ([] : List String) else [l])
  · simp [hx, hm]
  · simp [hx, hm]

/-- Members of the protected set come from its two sources. -/
theorem keepSet_cases (l : String) (b : Option String) :
    ∀ k ∈ keepSet l b, k = l ∨ b = some k := by
  intro k hk
  unfold keepSet at hk
  cases b with
  | none =>
    dsimp only at hk
    by_cases hl : l = ""
    · rw [if_pos hl] at hk; simp at hk
    · rw [if_neg hl] at hk; left; simpa using hk
  | some x =>
    dsimp only at hk
    by_cases hx : x = ""
    · rw [if_pos hx] at hk
      by_cases hl : l = ""
      · rw [if_pos hl] at hk; simp at hk
      · rw [if_neg hl] at hk; left; simpa using hk
    · rw [if_neg hx] at hk
      by_cases hm : x ∈ (if l = "" then ([] : List String) else [l])
      · rw [if_pos hm] at hk
        by_cases hl : l = ""
        · rw [if_pos hl] at hk; simp at hk
        · rw [if_neg hl] at hk; left; simpa using hk
      · rw [if_neg hm] at hk
        rcases List.mem_append.mp hk with h | h
        · by_cases hl : l = ""
          · rw [if_pos hl] at h; simp at h
          · rw [if_neg hl] at h; left; simpa using h
        · right; rw [List.mem_singleton.mp h]

/-- When the selector repeats the winner, the protected set is a
singleton. -/
theorem keepSet_self (l : String) (h : l ≠ "") : keepSet l (some l) = [l] := by
  simp [keepSet, h]

/-- Absorbing the `-1` seed: the selector reduce equals the no-seed
reduce of `cleanupRuns`. -/
theorem reduceBest_seed (a : String × Int) (l : List (String × Int))
    (h : (-1 : Int) < a.2) :
    reduceBest (a :: l) (a.1, -1) = reduceBest l a := by
  have hstep : reduceBest (a :: l) (a.1, -1) =
      reduceBest l (if a.2 > (-1 : Int) then a else (a.1, -1)) := rfl
  rw [hstep, if_pos h]

/-- The reduce winner's count is the maximum count. -/
theorem reduceBest_snd (l : List (String × Int)) (a : String × Int) :
    (reduceBest l a).2 = sndMax a l := by
  have h := List.find?_some (find?_reduceBest l a)
  simpa using h

/-- `getLatestRunId` on a migrated store with a non-empty listing. -/
theorem getLatestRunId_eq (now : Nat) (t : Store)
    (hmig : ensureLegacyRunMigration now t = t)
    (r0 : RunMeta) (rest : List RunMeta) (hm : runsListing t = r0 :: rest) :
    getLatestRunId now t =
      (if (reduceBest ((r0 :: rest).map
            (fun run => (run.id, (getEvaluationCount run.id t : Int)))) (r0.id, -1)).2 > 0
       then some (reduceBest ((r0 :: rest).map
            (fun run => (run.id, (getEvaluationCount run.id t : Int)))) (r0.id, -1)).1
       else if (r0 :: rest).any (fun run => run.id = LEGACY_RUN_ID)
       then some LEGACY_RUN_ID
       else some r0.id, t) := by
  have hget : getRuns now t = (runsListing t, t) := by
    rw [getRuns_eq, hmig]
  unfold getLatestRunId
  rw [hget]
  dsimp only
  rw [hm]
  dsimp only
  split_ifs <;> rfl

/-- The self-healing pointer read on a store whose pointer is already
sound is a pure read. -/
theorem getCurrentRunId_of_good (now : Nat) (u : Store) (hne : registryOf u ≠ [])
    (hpt : u.currentRunId = none ∨ u.currentRunId = some "" ∨
      ∃ c, u.currentRunId = some c ∧ c ∈ registryOf u) :
    (getCurrentRunId now u = (none, u) ∧
      (u.currentRunId = none ∨ u.currentRunId = some "")) ∨
    (∃ c, getCurrentRunId now u = (some c, u) ∧
      u.currentRunId = some c ∧ c ∈ registryOf u) := by
  rcases hpt with h | h | ⟨c, hc, hcreg⟩
  · left
    refine ⟨?_, Or.inl h⟩
    unfold getCurrentRunId
    rw [h]
  · left
    refine ⟨?_, Or.inr h⟩
    unfold getCurrentRunId
    rw [h]
    simp
  · by_cases hce : c = ""
    · left
      refine ⟨?_, Or.inr (hce ▸ hc)⟩
      unfold getCurrentRunId
      rw [hc, hce]
      simp
    · right
      refine ⟨c, ?_, hc, hcreg⟩
      unfold getCurrentRunId
      rw [hc]
      dsimp only
      rw [if_neg hce, getRunIds_of_nonempty now u hne]
      dsimp only
      rw [if_pos hcreg]

/-- The pointer phase of `cleanupRuns` when every surviving run is
protected: the state is unchanged or merely loses its pointer, and the
resulting pointer is sound. -/
theorem healPointer_spec (now : Nat) (keep : List String) (b : Option String) (u : Store)
    (hne : registryOf u ≠ [])
    (hsub : ∀ id ∈ registryOf u, id ∈ keep) :
    (healPointer now keep b u = u ∨ healPointer now keep b u = clearCurrentRunId u) ∧
    ((healPointer now keep b u).currentRunId = none ∨
     (healPointer now keep b u).currentRunId = some "" ∨
     ∃ c, (healPointer now keep b u).currentRunId = some c ∧ c ∈ registryOf u) := by
  unfold healPointer
  dsimp only
  cases hcur : u.currentRunId with
  | none =>
    have hg : getCurrentRunId now u = (none, u) := by
      unfold getCurrentRunId; rw [hcur]
    rw [hg]
    exact ⟨Or.inl rfl, Or.inl hcur⟩
  | some rid =>
    by_cases hre : rid = ""
    · have hg : getCurrentRunId now u = (none, u) := by
        unfold getCurrentRunId; rw [hcur, hre]; simp
      rw [hg]
      exact ⟨Or.inl rfl, Or.inr (Or.inl (hre ▸ hcur))⟩
    · by_cases hmem : rid ∈ registryOf u
      · have hg : getCurrentRunId now u = (some rid, u) := by
          unfold getCurrentRunId
          rw [hcur]
          dsimp only
          rw [if_neg hre, getRunIds_of_nonempty now u hne]
          dsimp only
          rw [if_pos hmem]
        rw [hg]
        dsimp only
        rw [if_pos (hsub rid hmem)]
        exact ⟨Or.inl rfl, Or.inr (Or.inr ⟨rid, hcur, hmem⟩)⟩
      · have hg : getCurrentRunId now u = (none, clearCurrentRunId u) := by
          unfold getCurrentRunId
          rw [hcur]
          dsimp only
          rw [if_neg hre, getRunIds_of_nonempty now u hne]
          dsimp only
          rw [if_neg hmem]
        rw [hg]
        exact ⟨Or.inr rfl, Or.inl rfl⟩

/-- The deletion loop is the identity when every listed run is
protected. -/
theorem deleteLoop_id (now : Nat) (keep : List String) :
    ∀ (rs : List RunMeta), (∀ m ∈ rs, m.id ∈ keep) →
      ∀ acc, deleteLoop now keep rs acc = acc := by
  intro rs
  induction rs with
  | nil => intro _ acc; rfl
  | cons r tl ih =>
    intro h acc
    have hr : r.id ∈ keep := h r (List.mem_cons_self r tl)
    have hstep : deleteLoop now keep (r :: tl) acc =
        deleteLoop now keep tl
          (if r.id ∈ keep then acc else (acc.1 ++ [r.id], deleteRun now r.id acc.2)) := rfl
    rw [hstep, if_pos hr]
    exact ih (fun m hm => h m (List.mem_cons_of_mem r hm)) acc

/-- Filtering a duplicate-free list down to one of its members. -/
theorem filter_mem_singleton (x : String) :
    ∀ (l : List String), l.Nodup → x ∈ l →
      l.filter (fun a => a ∈ [x]) = [x] := by
  intro l
  induction l with
  | nil => intro _ h; simp at h
  | cons a tl ih =>
    intro hnd hx
    rw [List.filter_cons]
    rcases List.mem_cons.mp hx with heq | hxt
    · rw [if_pos (by simp [heq.symm])]
      have hnot : a ∉ tl := (List.nodup_cons.mp hnd).1
      have hnil : tl.filter (fun a => a ∈ [x]) = [] := by
        rw [List.filter_eq_nil_iff]
        intro b hb hc
        have : b = x := by simpa using hc
        rw [← heq] at hnot
        exact hnot (this ▸ hb)
      rw [hnil, heq]
    · have hne : ¬ (a ∈ [x]) := by
        intro hc
        have : a = x := by simpa using hc
        exact (List.nodup_cons.mp hnd).1 (this ▸ hxt)
      rw [if_neg (by simpa using hne)]
      exact ih (List.nodup_cons.mp hnd).2 hxt

/-- `cleanupRuns` on a migrated store with a non-empty listing, spelled
out in terms of its four phases. -/
theorem cleanupRuns_cons (now : Nat) (t : Store)
    (hmig : ensureLegacyRunMigration now t = t)
    (r0 : RunMeta) (rest : List RunMeta) (hm : runsListing t = r0 :: rest)
    (L : String × Int)
    (hL : L = reduceBest (rest.map
        (fun run => (run.id, (getEvaluationCount run.id t : Int))))
        (r0.id, (getEvaluationCount r0.id t : Int)))
    (B : Option String) (hB : B = (getLatestRunId now t).1) :
    cleanupRuns now t =
      ({ legacy_run_id := some L.1, best_run_id := B,
         kept_run_ids := keepSet L.1 B,
         deleted_run_ids := (deleteLoop now (keepSet L.1 B) (r0 :: rest) ([], t)).1 },
        healPointer now (keepSet L.1 B) B
          (deleteLoop now (keepSet L.1 B) (r0 :: rest) ([], t)).2) := by
  subst hL
  subst hB
  have hget : getRuns now t = (runsListing t, t) := by
    rw [getRuns_eq, hmig]
  have hq2 : (getLatestRunId now t).2 = t := by
    rw [getLatestRunId_eq now t hmig r0 rest hm]
  unfold cleanupRuns
  rw [hget]
  dsimp only
  rw [hm]
  dsimp only
  rw [hq2]

/-- The pointer phase is the identity when the pointer is sound and
every surviving run is protected. -/
theorem healPointer_id (now : Nat) (keep : List String) (b : Option String) (u : Store)
    (hne : registryOf u ≠ [])
    (hpt : u.currentRunId = none ∨ u.currentRunId = some "" ∨
      ∃ c, u.currentRunId = some c ∧ c ∈ registryOf u)
    (hsub : ∀ id ∈ registryOf u, id ∈ keep) :
    healPointer now keep b u = u := by
  unfold healPointer
  dsimp only
  rcases getCurrentRunId_of_good now u hne hpt with ⟨hg, h2⟩ | ⟨c, hg, hc2, hcreg⟩
  · rw [hg]
  · rw [hg]
    dsimp only
    rw [if_pos (hsub c hcreg)]

/-- A second `cleanupRuns` call deletes nothing and leaves the state
untouched when the first call's state has a sound pointer and every
registered run would again be protected. -/
theorem cleanup_second (now2 : Nat) (u : Store) (hWF : WF u) (hne : registryOf u ≠ [])
    (hpt : u.currentRunId = none ∨ u.currentRunId = some "" ∨
      ∃ c, u.currentRunId = some c ∧ c ∈ registryOf u)
    (hkeep : ∀ id ∈ registryOf u, id ∈ (cleanupRuns now2 u).1.kept_run_ids) :
    (cleanupRuns now2 u).1.deleted_run_ids = [] ∧ (cleanupRuns now2 u).2 = u := by
  have hmig := migration_of_nonempty now2 u hne
  obtain ⟨r0, rest, hm⟩ := runsListing_ne_nil u hne
  have hall : ∀ m ∈ (r0 :: rest), m.id ∈ (cleanupRuns now2 u).1.kept_run_ids := by
    intro m hmm
    exact hkeep m.id (runsListing_mem_id u hWF m (by rw [hm]; exact hmm))
  have hclean := cleanupRuns_cons now2 u hmig r0 rest hm _ rfl _ rfl
  rw [hclean] at hall hkeep ⊢
  dsimp only at hall hkeep ⊢
  rw [deleteLoop_id now2 _ (r0 :: rest) hall ([], u)]
  exact ⟨rfl, healPointer_id now2 _ _ u hne hpt hkeep⟩

/-- Every registered run of a one-run store is protected by
`cleanupRuns`. -/
theorem cleanup_keep_singleton (now2 : Nat) (u : Store) (hWF : WF u) (x : String)
    (hreg : registryOf u = [x]) :
    ∀ id ∈ registryOf u, id ∈ (cleanupRuns now2 u).1.kept_run_ids := by
  have hne : registryOf u ≠ [] := by rw [hreg]; simp
  have hmig := migration_of_nonempty now2 u hne
  obtain ⟨r0, rest, hm⟩ := runsListing_ne_nil u hne
  have hr0 : r0.id = x := by
    have hmem := runsListing_mem_id u hWF r0 (by rw [hm]; exact List.mem_cons_self r0 rest)
    rw [hreg] at hmem
    simpa using hmem
  have hxne : x ≠ "" := (hWF.2 x (by rw [hreg]; simp)).1
  have hrest : rest = [] := by
    have hperm := runsListing_ids u hWF
    rw [hm, hreg] at hperm
    have hlen := hperm.length_eq
    simp at hlen
    exact hlen
  subst hrest
  have hclean := cleanupRuns_cons now2 u hmig r0 [] hm _ rfl _ rfl
  intro id hid
  rw [hreg] at hid
  have hidx : id = x := by simpa using hid
  rw [hclean]
  dsimp only
  have hL1 : (reduceBest (([] : List RunMeta).map
      (fun run => (run.id, (getEvaluationCount run.id u : Int))))
      (r0.id, (getEvaluationCount r0.id u : Int))).1 = r0.id := rfl
  rw [hL1, hidx, ← hr0]
  exact keepSet_mem_left r0.id _ (by rw [hr0]; exact hxne)

/-- Every registered run is protected by `cleanupRuns` when all
evaluation counts are zero and only the listing head and the legacy
sentinel are registered. -/
theorem cleanup_keep_zero (now2 : Nat) (u : Store) (hWF : WF u)
    (r0 : RunMeta) (rest : List RunMeta) (hm : runsListing u = r0 :: rest)
    (hzero : ∀ id ∈ registryOf u, getEvaluationCount id u = 0)
    (hsub : ∀ id ∈ registryOf u, id = r0.id ∨ id = LEGACY_RUN_ID) :
    ∀ id ∈ registryOf u, id ∈ (cleanupRuns now2 u).1.kept_run_ids := by
  have hne : registryOf u ≠ [] := by
    intro hc
    rw [runsListing, hc] at hm
    simp [sortByKeyDesc] at hm
  have hmig := migration_of_nonempty now2 u hne
  have hr0reg : r0.id ∈ registryOf u :=
    runsListing_mem_id u hWF r0 (by rw [hm]; exact List.mem_cons_self r0 rest)
  have hr0ne : r0.id ≠ "" := (hWF.2 r0.id hr0reg).1
  have hc0 : getEvaluationCount r0.id u = 0 := hzero r0.id hr0reg
  have hclean := cleanupRuns_cons now2 u hmig r0 rest hm _ rfl _ rfl
  have hallz : ∀ c ∈ rest.map (fun run : RunMeta =>
      (run.id, (getEvaluationCount run.id u : Int))),
      c.2 ≤ ((r0.id, (getEvaluationCount r0.id u : Int)) : String × Int).2 := by
    intro c hc
    obtain ⟨m, hmm, he⟩ := List.mem_map.mp hc
    have hmreg : m.id ∈ registryOf u :=
      runsListing_mem_id u hWF m (by rw [hm]; exact List.mem_cons_of_mem r0 hmm)
    rw [← he]
    dsimp only
    rw [hzero m.id hmreg, hzero r0.id hr0reg]
  have hLeq : reduceBest (rest.map (fun run : RunMeta =>
      (run.id, (getEvaluationCount run.id u : Int))))
      (r0.id, (getEvaluationCount r0.id u : Int)) =
      (r0.id, (getEvaluationCount r0.id u : Int)) :=
    reduceBest_const _ _ hallz
  have hseed : reduceBest ((r0 :: rest).map (fun run : RunMeta =>
      (run.id, (getEvaluationCount run.id u : Int)))) (r0.id, -1) =
      reduceBest (rest.map (fun run : RunMeta =>
        (run.id, (getEvaluationCount run.id u : Int))))
        (r0.id, (getEvaluationCount r0.id u : Int)) := by
    have h0 : (-1 : Int) <
        ((r0.id, (getEvaluationCount r0.id u : Int)) : String × Int).2 := by
      dsimp only
      omega
    exact reduceBest_seed (r0.id, (getEvaluationCount r0.id u : Int)) _ h0
  have hBval : (getLatestRunId now2 u).1 =
      (if ((r0 :: rest).any (fun run => run.id = LEGACY_RUN_ID)) = true
       then some LEGACY_RUN_ID else some r0.id) := by
    rw [getLatestRunId_eq now2 u hmig r0 rest hm]
    dsimp only
    rw [hseed, hLeq]
    dsimp only
    rw [hc0]
    rw [if_neg (by simp)]
  intro id hid
  rw [hclean]
  dsimp only
  rw [hLeq]
  dsimp only
  rcases hsub id hid with heq | heq
  · rw [heq]
    exact keepSet_mem_left r0.id _ hr0ne
  · rw [heq]
    have hany : ((r0 :: rest).any (fun run => run.id = LEGACY_RUN_ID)) = true := by
      obtain ⟨m, hmm, hmid⟩ := registry_sub_runsListing u hWF LEGACY_RUN_ID (heq ▸ hid)
      rw [hm] at hmm
      exact List.any_eq_true.mpr ⟨m, hmm, by simp [hmid]⟩
    rw [hBval, if_pos hany]
    exact keepSet_mem_right r0.id LEGACY_RUN_ID (by decide)

/-- Retention behaviour of `cleanupRuns` on a store with registered
runs: at most two protected ids, every protected id survives, every
registered id is kept or deleted, deleted non-legacy runs lose all
seven namespaced keys while the deleted legacy sentinel loses exactly
its five legacy keys, at most two runs remain, and an immediate second
cleanup deletes nothing and returns the state unchanged. -/
theorem cleanup_main (now now2 : Nat) (t : Store) (hWF : WF t)
    (hne : registryOf t ≠ []) :
    (cleanupRuns now t).1.kept_run_ids.length ≤ 2 ∧
    (∀ k ∈ (cleanupRuns now t).1.kept_run_ids,
      k ∉ (cleanupRuns now t).1.deleted_run_ids ∧
      k ∈ registryOf (cleanupRuns now t).2) ∧
    (∀ id ∈ registryOf t,
      id ∈ (cleanupRuns now t).1.kept_run_ids ∨
      id ∈ (cleanupRuns now t).1.deleted_run_ids) ∧
    (∀ d ∈ (cleanupRuns now t).1.deleted_run_ids,
      d ∉ registryOf (cleanupRuns now t).2 ∧
      (d ≠ LEGACY_RUN_ID →
        (cleanupRuns now t).2.meta d = none ∧
        (cleanupRuns now t).2.evaluations d = none ∧
        (cleanupRuns now t).2.summary d = none ∧
        (cleanupRuns now t).2.clusters d = none ∧
        (cleanupRuns now t).2.ranking d = none ∧
        (cleanupRuns now t).2.trace d = none ∧
        (cleanupRuns now t).2.promptBundle d = none) ∧
      (d = LEGACY_RUN_ID →
        (cleanupRuns now t).2.legacySummary = none ∧
        (cleanupRuns now t).2.legacyEvaluations = none ∧
        (cleanupRuns now t).2.legacyClusters = none ∧
        (cleanupRuns now t).2.legacyRanking = none ∧
        (cleanupRuns now t).2.legacyTrace = none)) ∧
    (registryOf (cleanupRuns now t).2).length ≤ 2 ∧
    (cleanupRuns now2 (cleanupRuns now t).2).1.deleted_run_ids = [] ∧
    (cleanupRuns now2 (cleanupRuns now t).2).2 = (cleanupRuns now t).2 := by
  have hmig := migration_of_nonempty now t hne
  obtain ⟨r0, rest, hm⟩ := runsListing_ne_nil t hne
  have hr0reg : r0.id ∈ registryOf t :=
    runsListing_mem_id t hWF r0 (by rw [hm]; exact List.mem_cons_self r0 rest)
  have hclean := cleanupRuns_cons now t hmig r0 rest hm _ rfl _ rfl
  set cnt : RunMeta → String × Int :=
    fun run => (run.id, (getEvaluationCount run.id t : Int)) with hcnt
  set L := reduceBest (rest.map cnt) (r0.id, (getEvaluationCount r0.id t : Int)) with hLdef
  set B := (getLatestRunId now t).1 with hBdef
  set K := keepSet L.1 B with hKdef
  -- the reduce winner is a listed run
  have hLmem : L ∈ (r0.id, (getEvaluationCount r0.id t : Int)) :: rest.map cnt := by
    rw [hLdef]
    exact reduceBest_mem (rest.map cnt) _
  have hLrun : ∃ m ∈ r0 :: rest, L = cnt m := by
    rcases List.mem_cons.mp hLmem with h | h
    · exact ⟨r0, List.mem_cons_self r0 rest, h⟩
    · obtain ⟨m, hmm, he⟩ := List.mem_map.mp h
      exact ⟨m, List.mem_cons_of_mem r0 hmm, he.symm⟩
  obtain ⟨mL, hmLmem, hmLeq⟩ := hLrun
  have hmLreg : mL.id ∈ registryOf t :=
    runsListing_mem_id t hWF mL (by rw [hm]; exact hmLmem)
  have hL1 : L.1 = mL.id := by rw [hmLeq]
  have hL1reg : L.1 ∈ registryOf t := by rw [hL1]; exact hmLreg
  have hL1ne : L.1 ≠ "" := by rw [hL1]; exact (hWF.2 mL.id hmLreg).1
  -- the selector value
  have hBeq : B = (if L.2 > 0 then some L.1
      else if ((r0 :: rest).any (fun run => run.id = LEGACY_RUN_ID)) = true
      then some LEGACY_RUN_ID else some r0.id) := by
    have h0 : (-1 : Int) <
        ((r0.id, (getEvaluationCount r0.id t : Int)) : String × Int).2 := by
      dsimp only
      omega
    have habs : reduceBest ((r0 :: rest).map
        (fun run => (run.id, (getEvaluationCount run.id t : Int)))) (r0.id, -1) = L := by
      rw [hLdef]
      exact reduceBest_seed (r0.id, (getEvaluationCount r0.id t : Int)) (rest.map cnt) h0
    rw [hBdef, getLatestRunId_eq now t hmig r0 rest hm]
    dsimp only
    rw [habs]
  have hBsrc : B = some L.1 ∨
      (B = some LEGACY_RUN_ID ∧ LEGACY_RUN_ID ∈ registryOf t) ∨ B = some r0.id := by
    by_cases h1 : L.2 > 0
    · left; rw [hBeq, if_pos h1]
    · by_cases h2 : ((r0 :: rest).any (fun run => run.id = LEGACY_RUN_ID)) = true
      · right; left
        refine ⟨by rw [hBeq, if_neg h1, if_pos h2], ?_⟩
        obtain ⟨m, hmm, hmid⟩ := List.any_eq_true.mp h2
        have hmid2 : m.id = LEGACY_RUN_ID := by simpa using hmid
        exact hmid2 ▸ runsListing_mem_id t hWF m (by rw [hm]; exact hmm)
      · right; right; rw [hBeq, if_neg h1, if_neg h2]
  -- the protected set
  have hkeep_sub : ∀ k ∈ K, k ∈ registryOf t := by
    intro k hk
    rcases keepSet_cases L.1 B k hk with heq | hbk
    · rw [heq]; exact hL1reg
    · rcases hBsrc with h | ⟨h, hleg⟩ | h
      · have hkL : L.1 = k := by rw [h] at hbk; exact Option.some_inj.mp hbk
        rw [← hkL]; exact hL1reg
      · have hkL : LEGACY_RUN_ID = k := by rw [h] at hbk; exact Option.some_inj.mp hbk
        rw [← hkL]; exact hleg
      · have hkL : r0.id = k := by rw [h] at hbk; exact Option.some_inj.mp hbk
        rw [← hkL]; exact hr0reg
  have hKLmem : L.1 ∈ K := keepSet_mem_left L.1 B hL1ne
  have hKne : K ≠ [] := List.ne_nil_of_mem hKLmem
  have hKlen : K.length ≤ 2 := keepSet_length L.1 B
  -- the deletion loop
  set loop := deleteLoop now K (r0 :: rest) ([], t) with hloopdef
  have hids_mem : ∀ m ∈ (r0 :: rest), m.id ∈ registryOf t := by
    intro m hmm
    exact runsListing_mem_id t hWF m (by rw [hm]; exact hmm)
  have hids_nodup : ((r0 :: rest).map (fun m => m.id)).Nodup := by
    have h := runsListing_nodup t hWF
    rw [hm] at h
    exact h
  have hinv0 : LoopInv t K ([], t) := by
    refine ⟨by simp, ?_, ?_, rfl, ?_, ?_, ?_, rfl⟩
    · intro id _; exact ⟨rfl, rfl, rfl, rfl, rfl, rfl, rfl⟩
    · intro _; exact ⟨rfl, rfl, rfl, rfl, rfl⟩
    · intro id hid; simp at hid
    · intro id hid; simp at hid
    · intro h; simp at h
  have hfold := LoopInv_fold now t K hKne hkeep_sub (r0 :: rest) ([], t)
      hids_mem hids_nodup (by intro m hmm; simp) hinv0
  have hloopeq : loop = (r0 :: rest).foldl
      (fun a run => if run.id ∈ K then a else (a.1 ++ [run.id], deleteRun now run.id a.2))
      ([], t) := rfl
  rw [← hloopeq] at hfold
  obtain ⟨hinv, hdel_eq⟩ := hfold
  rw [List.nil_append] at hdel_eq
  obtain ⟨hreg3, hpres, hlegpres, hcur3, hdelprops, hdelclear, hdelleg, hmetaleg⟩ := hinv
  have hdel_mem : ∀ id, id ∈ loop.1 ↔ ∃ m ∈ (r0 :: rest), m.id = id ∧ id ∉ K := by
    intro id
    rw [hdel_eq]
    constructor
    · intro h
      obtain ⟨m, hm2, he⟩ := List.mem_map.mp h
      have hf := List.mem_filter.mp hm2
      refine ⟨m, hf.1, he, ?_⟩
      have hf2 := hf.2
      rw [he] at hf2
      simpa using hf2
    · rintro ⟨m, hm2, he, hk⟩
      refine List.mem_map.mpr ⟨m, List.mem_filter.mpr ⟨hm2, ?_⟩, he⟩
      rw [he]
      simpa using hk
  have hreg3f : registryOf loop.2 = (registryOf t).filter (fun id => id ∈ K) := by
    rw [hreg3]
    apply List.filter_congr
    intro x hx
    obtain ⟨m, hmm, hmid⟩ := registry_sub_runsListing t hWF x hx
    rw [hm] at hmm
    by_cases hk : x ∈ K
    · have hnd : x ∉ loop.1 := by
        intro hc
        obtain ⟨m2, h2, h3, h4⟩ := (hdel_mem x).mp hc
        exact h4 hk
      simp [hk, hnd]
    · have hd : x ∈ loop.1 := (hdel_mem x).mpr ⟨m, hmm, hmid, hk⟩
      simp [hk, hd]
  have hndreg : (registryOf loop.2).Nodup := by
    rw [hreg3f]
    exact hWF.1.filter _
  have hsub3 : ∀ id ∈ registryOf loop.2, id ∈ K := by
    intro id hid
    rw [hreg3f] at hid
    have h2 := (List.mem_filter.mp hid).2
    simpa using h2
  have hmemreg3 : ∀ id ∈ registryOf loop.2, id ∈ registryOf t := by
    intro id hid
    rw [hreg3f] at hid
    exact (List.mem_filter.mp hid).1
  have hnotdel3 : ∀ id ∈ registryOf loop.2, id ∉ loop.1 := by
    intro id hid
    rw [hreg3] at hid
    have h2 := (List.mem_filter.mp hid).2
    simpa using h2
  have hlen3 : (registryOf loop.2).length ≤ 2 := by
    have hsp := (hndreg.subperm hsub3).length_le
    exact le_trans hsp hKlen
  have hne3 : registryOf loop.2 ≠ [] := by
    have hLm : L.1 ∈ registryOf loop.2 := by
      rw [hreg3f]
      exact List.mem_filter.mpr ⟨hL1reg, by simpa using hKLmem⟩
    exact List.ne_nil_of_mem hLm
  obtain ⟨hhp, hptr⟩ := healPointer_spec now K B loop.2 hne3 hsub3
  set sF := healPointer now K B loop.2 with hsFdef
  have hfields :
      registryOf sF = registryOf loop.2 ∧
      sF.meta = loop.2.meta ∧ sF.evaluations = loop.2.evaluations ∧
      sF.summary = loop.2.summary ∧ sF.clusters = loop.2.clusters ∧
      sF.ranking = loop.2.ranking ∧ sF.trace = loop.2.trace ∧
      sF.promptBundle = loop.2.promptBundle ∧
      sF.legacySummary = loop.2.legacySummary ∧
      sF.legacyEvaluations = loop.2.legacyEvaluations ∧
      sF.legacyClusters = loop.2.legacyClusters ∧
      sF.legacyRanking = loop.2.legacyRanking ∧
      sF.legacyTrace = loop.2.legacyTrace := by
    rcases hhp with h | h <;> rw [h] <;>
      exact ⟨rfl, rfl, rfl, rfl, rfl, rfl, rfl, rfl, rfl, rfl, rfl, rfl, rfl⟩
  obtain ⟨hfreg, hfmeta, hfev, hfsum, hfclu, hfrank, hftrace, hfpb,
    hflsum, hflev, hflclu, hflrank, hfltr⟩ := hfields
  have hWF3 : WF sF := by
    constructor
    · rw [hfreg]; exact hndreg
    · intro id hid
      rw [hfreg] at hid
      have hidt := hmemreg3 id hid
      obtain ⟨h1, h2, h3⟩ := hWF.2 id hidt
      refine ⟨h1, h2, ?_⟩
      have hmeta : sF.meta id = t.meta id := by
        rw [hfmeta]
        exact (hpres id (hnotdel3 id hid)).1
      rw [hmeta]
      exact h3
  have hneF : registryOf sF ≠ [] := by rw [hfreg]; exact hne3
  have hcount : ∀ id ∈ registryOf sF, getEvaluationCount id sF = getEvaluationCount id t := by
    intro id hid
    rw [hfreg] at hid
    have hidt := hmemreg3 id hid
    obtain ⟨h1, h2, h3⟩ := hWF.2 id hidt
    have hnotd := hnotdel3 id hid
    unfold getEvaluationCount getEvaluations
    by_cases hleg : id = LEGACY_RUN_ID
    · have hsc : isLegacyScope (some id) = true := by
        simp [isLegacyScope, hleg]
      rw [if_pos hsc, if_pos hsc]
      rw [hflev]
      have hlegnot : LEGACY_RUN_ID ∉ loop.1 := by rw [← hleg]; exact hnotd
      rw [(hlegpres hlegnot).2.1]
    · have hsc : isLegacyScope (some id) = false := by
        simp [isLegacyScope, h1, h2, hleg]
      have hco : ¬ (isLegacyScope (some id) = true) := by simp [hsc]
      rw [if_neg hco, if_neg hco]
      dsimp only
      rw [hfev, (hpres id hnotd).2.1]
  have hptF : sF.currentRunId = none ∨ sF.currentRunId = some "" ∨
      ∃ c, sF.currentRunId = some c ∧ c ∈ registryOf sF := by
    rcases hptr with h | h | ⟨c, h, hcreg⟩
    · exact Or.inl h
    · exact Or.inr (Or.inl h)
    · exact Or.inr (Or.inr ⟨c, h, by rw [hfreg]; exact hcreg⟩)
  have hkeep2 : ∀ id ∈ registryOf sF, id ∈ (cleanupRuns now2 sF).1.kept_run_ids := by
    by_cases hpos : L.2 > 0
    · have hBL : B = some L.1 := by rw [hBeq, if_pos hpos]
      have hKL : K = [L.1] := by rw [hKdef, hBL]; exact keepSet_self L.1 hL1ne
      have hregF : registryOf sF = [L.1] := by
        rw [hfreg, hreg3f, hKL]
        exact filter_mem_singleton L.1 (registryOf t) hWF.1 hL1reg
      exact cleanup_keep_singleton now2 sF hWF3 L.1 hregF
    · have hL2le : ∀ c ∈ (r0.id, (getEvaluationCount r0.id t : Int)) :: rest.map cnt,
          c.2 ≤ L.2 := by
        intro c hc
        rw [hLdef, reduceBest_snd]
        exact le_sndMax_mem (rest.map cnt) _ c hc
      have hzero : ∀ id ∈ registryOf t, getEvaluationCount id t = 0 := by
        intro id hid
        obtain ⟨m, hmm, hmid⟩ := registry_sub_runsListing t hWF id hid
        rw [hm] at hmm
        have hcm : cnt m ∈ (r0.id, (getEvaluationCount r0.id t : Int)) :: rest.map cnt := by
          rcases List.mem_cons.mp hmm with heq | ht
          · exact List.mem_cons.mpr (Or.inl (by rw [heq]))
          · exact List.mem_cons.mpr (Or.inr (List.mem_map_of_mem cnt ht))
        have hle := hL2le (cnt m) hcm
        have hcnt2 : (cnt m).2 = (getEvaluationCount m.id t : Int) := rfl
        rw [hcnt2, hmid] at hle
        have hle0 : L.2 ≤ 0 := not_lt.mp hpos
        omega
      have hzeroF : ∀ id ∈ registryOf sF, getEvaluationCount id sF = 0 := by
        intro id hid
        rw [hcount id hid]
        exact hzero id (hmemreg3 id (by rw [← hfreg]; exact hid))
      have hLr0 : L = (r0.id, (getEvaluationCount r0.id t : Int)) := by
        rw [hLdef]
        apply reduceBest_const
        intro c hc
        obtain ⟨m, hmm, he⟩ := List.mem_map.mp hc
        have hmreg : m.id ∈ registryOf t :=
          runsListing_mem_id t hWF m (by rw [hm]; exact List.mem_cons_of_mem r0 hmm)
        rw [← he]
        show (cnt m).2 ≤ ((r0.id, (getEvaluationCount r0.id t : Int)) : String × Int).2
        have hc2 : (cnt m).2 = (getEvaluationCount m.id t : Int) := rfl
        rw [hc2, hzero m.id hmreg, hzero r0.id hr0reg]
      have hL1r0 : L.1 = r0.id := by rw [hLr0]
      have hmeta_pres : ∀ id ∈ registryOf sF, sF.meta id = t.meta id := by
        intro id hid
        rw [hfmeta]
        exact (hpres id (hnotdel3 id (by rw [← hfreg]; exact hid))).1
      have hmapF : (registryOf sF).map (metaOrDefault sF) =
          (registryOf sF).map (metaOrDefault t) := by
        apply List.map_congr_left
        intro id hid
        unfold metaOrDefault
        rw [hmeta_pres id hid]
      have hregFfilter : registryOf sF = (registryOf t).filter (fun id => id ∈ K) := by
        rw [hfreg, hreg3f]
      have hlistF : runsListing sF = (r0 :: rest).filter (fun m => m.id ∈ K) := by
        rw [runsListing, hmapF, hregFfilter,
          map_filter_ids (metaOrDefault t) (fun id => id ∈ K) (registryOf t)
            (metaOrDefault_id t hWF)]
        rw [← filter_sortByKeyDesc]
        rw [show sortByKeyDesc (fun m : RunMeta => (m.timestamp : Int))
          ((registryOf t).map (metaOrDefault t)) = runsListing t from rfl, hm]
      have hr0K : r0.id ∈ K := by rw [← hL1r0]; exact hKLmem
      have hlistF2 : runsListing sF = r0 :: rest.filter (fun m => m.id ∈ K) := by
        rw [hlistF, List.filter_cons, if_pos (by simpa using hr0K)]
      have hsubF : ∀ id ∈ registryOf sF, id = r0.id ∨ id = LEGACY_RUN_ID := by
        intro id hid
        have hidK : id ∈ K := by
          rw [hregFfilter] at hid
          simpa using (List.mem_filter.mp hid).2
        rcases keepSet_cases L.1 B id hidK with heq | hbk
        · left; rw [heq, hL1r0]
        · rcases hBsrc with h | ⟨h, hleg⟩ | h
          · left
            rw [h] at hbk
            have hkL : L.1 = id := Option.some_inj.mp hbk
            rw [← hkL, hL1r0]
          · right
            rw [h] at hbk
            exact (Option.some_inj.mp hbk).symm
          · left
            rw [h] at hbk
            exact (Option.some_inj.mp hbk).symm
      exact cleanup_keep_zero now2 sF hWF3 r0 (rest.filter (fun m => m.id ∈ K))
        hlistF2 hzeroF hsubF
  have hsecond := cleanup_second now2 sF hWF3 hneF hptF hkeep2
  rw [hclean]
  dsimp only
  refine ⟨hKlen, ?_, ?_, ?_, ?_, hsecond.1, hsecond.2⟩
  · intro k hk
    constructor
    · intro hc
      obtain ⟨m2, h2, h3, h4⟩ := (hdel_mem k).mp hc
      exact h4 hk
    · rw [hfreg, hreg3f]
      exact List.mem_filter.mpr ⟨hkeep_sub k hk, by simpa using hk⟩
  · intro id hid
    by_cases hk : id ∈ K
    · exact Or.inl hk
    · obtain ⟨m, hmm, hmid⟩ := registry_sub_runsListing t hWF id hid
      rw [hm] at hmm
      exact Or.inr ((hdel_mem id).mpr ⟨m, hmm, hmid, hk⟩)
  · intro d hd
    obtain ⟨hdK, hdreg⟩ := hdelprops d hd
    refine ⟨?_, ?_, ?_⟩
    · intro hc
      rw [hfreg, hreg3f] at hc
      have h2 := (List.mem_filter.mp hc).2
      exact hdK (by simpa using h2)
    · intro hne2
      obtain ⟨h1, h2, h3, h4, h5, h6, h7⟩ := hdelclear d hd hne2
      exact ⟨by rw [hfmeta]; exact h1, by rw [hfev]; exact h2, by rw [hfsum]; exact h3,
        by rw [hfclu]; exact h4, by rw [hfrank]; exact h5, by rw [hftrace]; exact h6,
        by rw [hfpb]; exact h7⟩
    · intro heq2
      obtain ⟨h1, h2, h3, h4, h5⟩ := hdelleg (heq2 ▸ hd)
      exact ⟨by rw [hflsum]; exact h1, by rw [hflev]; exact h2, by rw [hflclu]; exact h3,
        by rw [hflrank]; exact h4, by rw [hfltr]; exact h5⟩
  · rw [hfreg]; exact hlen3

/-- C4 counterexample fixture: the legacy sentinel (one empty legacy
collection) and a run `"A"` with one evaluation are registered; the
sentinel has a stored namespaced metadata record. -/
def exC4state : Store :=
  { egEmpty with
    runs := some [LEGACY_RUN_ID, "A"],
    meta := fun id =>
      if id = LEGACY_RUN_ID then some { id := LEGACY_RUN_ID, timestamp := 1 }
      else if id = "A" then some { id := "A", timestamp := 10 }
      else none,
    legacyEvaluations := some [],
    evaluations := fun id => if id = "A" then some [egEval 1 "a" 5] else none }

/-- C4 counterexample: `cleanupRuns` deletes the unprotected legacy
run, yet its namespaced key set is NOT entirely removed — the legacy
delete branch clears only the five legacy keys, so the sentinel's
namespaced `meta` record survives the deletion. -/
theorem cleanupRuns_counterexample :
    "legacy" ∈ (cleanupRuns 20 exC4state).1.deleted_run_ids ∧
    (cleanupRuns 20 exC4state).2.meta "legacy" =
      some { id := "legacy", timestamp := 1 } :=
  ⟨by decide, rfl⟩

/-- C4 (amended): after migration, `cleanupRuns` protects at most two
ids (the first-seen maximum-count run and the selector's choice), every
protected id survives deletion and stays registered, every registered
id is either kept or deleted, every deleted id leaves the registry —
a deleted non-legacy run losing all seven namespaced keys, while the
deleted legacy sentinel loses exactly its five legacy keys (its
namespaced meta record survives, contrary to the claim's "entire
namespaced key set") — at most two runs remain registered, and an
immediate second `cleanupRuns` call deletes nothing and leaves the
state unchanged (idempotence). -/
theorem cleanupRuns_retention (now now2 : Nat) (s : Store) (hWF : WF s) :
    (cleanupRuns now s).1.kept_run_ids.length ≤ 2 ∧
    (∀ k ∈ (cleanupRuns now s).1.kept_run_ids,
      k ∉ (cleanupRuns now s).1.deleted_run_ids ∧
      k ∈ registryOf (cleanupRuns now s).2) ∧
    (∀ id ∈ registryOf (ensureLegacyRunMigration now s),
      id ∈ (cleanupRuns now s).1.kept_run_ids ∨
      id ∈ (cleanupRuns now s).1.deleted_run_ids) ∧
    (∀ d ∈ (cleanupRuns now s).1.deleted_run_ids,
      d ∉ registryOf (cleanupRuns now s).2 ∧
      (d ≠ LEGACY_RUN_ID →
        (cleanupRuns now s).2.meta d = none ∧
        (cleanupRuns now s).2.evaluations d = none ∧
        (cleanupRuns now s).2.summary d = none ∧
        (cleanupRuns now s).2.clusters d = none ∧
        (cleanupRuns now s).2.ranking d = none ∧
        (cleanupRuns now s).2.trace d = none ∧
        (cleanupRuns now s).2.promptBundle d = none) ∧
      (d = LEGACY_RUN_ID →
        (cleanupRuns now s).2.legacySummary = none ∧
        (cleanupRuns now s).2.legacyEvaluations = none ∧
        (cleanupRuns now s).2.legacyClusters = none ∧
        (cleanupRuns now s).2.legacyRanking = none ∧
        (cleanupRuns now s).2.legacyTrace = none)) ∧
    (registryOf (cleanupRuns now s).2).length ≤ 2 ∧
    (cleanupRuns now2 (cleanupRuns now s).2).1.deleted_run_ids = [] ∧
    (cleanupRuns now2 (cleanupRuns now s).2).2 = (cleanupRuns now s).2 := by
  by_cases hne : registryOf (ensureLegacyRunMigration now s) = []
  · obtain ⟨heqs, hemp, hdata⟩ := migration_empty now s hne
    have hrl : runsListing s = [] := by
      rw [runsListing, hemp]
      rfl
    have hget : getRuns now s = ([], s) := by
      rw [getRuns_eq, heqs, hrl]
    have hclean : cleanupRuns now s =
        ({ legacy_run_id := none, best_run_id := none,
           kept_run_ids := [], deleted_run_ids := [] }, s) := by
      unfold cleanupRuns
      rw [hget]
    have hmig2 : ensureLegacyRunMigration now2 s = s := by
      unfold ensureLegacyRunMigration
      have hlen : ¬ (s.runs.getD []).length > 0 := by
        rw [show s.runs.getD [] = registryOf s from rfl, hemp]
        simp
      simp [hlen, hdata]
    have hget2 : getRuns now2 s = ([], s) := by
      rw [getRuns_eq, hmig2, hrl]
    have hclean2 : cleanupRuns now2 s =
        ({ legacy_run_id := none, best_run_id := none,
           kept_run_ids := [], deleted_run_ids := [] }, s) := by
      unfold cleanupRuns
      rw [hget2]
    rw [hclean]
    dsimp only
    rw [hclean2]
    dsimp only
    refine ⟨by simp, by simp, ?_, by simp, by rw [hemp]; simp, rfl, rfl⟩
    intro id hid
    rw [hne] at hid
    simp at hid
  · have hWF1 := WF_migration now s hWF
    have hmigid := migration_of_nonempty now (ensureLegacyRunMigration now s) hne
    have hcl : cleanupRuns now s = cleanupRuns now (ensureLegacyRunMigration now s) := by
      unfold cleanupRuns
      rw [getRuns_eq now s, getRuns_eq now (ensureLegacyRunMigration now s), hmigid]
    rw [hcl]
    exact cleanup_main now now2 (ensureLegacyRunMigration now s) hWF1 hne

/-- Witness for C4 at the two-run state of the comparison example:
well-formedness holds by computation, and the theorem applies. -/
theorem cleanupRuns_retention_witness :
    WF exC2state ∧ (cleanupRuns 3 exC2state).1.kept_run_ids.length ≤ 2 :=
  ⟨by unfold WF; decide, (cleanupRuns_retention 3 4 exC2state (by unfold WF; decide)).1⟩

end RlmStore
